import Mathlib

/-!
Shallow embedding of `utils.py` (tree navigation utilities): the
mutual-exclusivity oracle `are_exclusive` with its helpers
`_try_except_from_branch` and `_are_from_exclusive_nodes`, the tree walker
`ASTWalker.walk`, and the locals walker `LocalsVisitor.visit`.

Nodes are identified by natural-number ids; Python object identity (`is`)
and default equality (`==`, identity for AST nodes) both become equality of
ids.  A raised exception is modelled by an error value that the embedding
propagates exactly where the Python exception would propagate.
-/

/-- Branch tags produced by `_try_except_from_branch` (the strings
`'body'`, `'else'`, `'except'`). -/
inductive Branch where
  | body
  | els
  | exc
deriving DecidableEq

/-- Structural data of a `TryExcept` node as `_try_except_from_branch`
consumes it: the `body` statement ids, the optional `orelse` node id, and
the handlers' body id sequences (in handler order). -/
structure TryData where
  body : List Nat
  orelse : Option Nat
  handlers : List (List Nat)

/-- Node kinds distinguished by `are_exclusive`: `If`, `TryExcept` (with its
structure), and anything else. -/
inductive NodeKind where
  | ifKind
  | tryKind (d : TryData)
  | other

/-- A syntax tree seen through parent links, as `are_exclusive` consumes it:
each node id has an optional parent and a kind.  The `depth` field witnesses
that parent chains are finite (the acyclicity invariant the source assumes
of its input trees); it makes the two climbing loops of `are_exclusive`
terminate exactly as they do on real trees. -/
structure Graph where
  parent : Nat → Option Nat
  kind : Nat → NodeKind
  depth : Nat → Nat
  parent_depth : ∀ n p, parent n = some p → depth p < depth n

/-- The `enumerate(node.handlers)` search inside `_try_except_from_branch`:
index of the first handler whose body contains `stmt`, starting at `i`. -/
def findHandlerIdx (stmt : Nat) : List (List Nat) → Nat → Option Nat
  | [], _ => none
  | hb :: hs, i => if stmt ∈ hb then some i else findHandlerIdx stmt hs (i + 1)

/-- `_try_except_from_branch node stmt`: membership in `node.body` gives
`('body', 1)`, identity with `node.orelse` gives `('else', 1)`, membership
in the i-th handler's body gives `('except', i)`; `none` models the
`ASTNGError` raise when nothing matches. -/
def tryExceptFromBranch (d : TryData) (stmt : Nat) : Option (Branch × Nat) :=
  if stmt ∈ d.body then some (Branch.body, 1)
  else if d.orelse = some stmt then some (Branch.els, 1)
  else
    match findHandlerIdx stmt d.handlers 0 with
    | some i => some (Branch.exc, i)
    | none => none

/-- `_are_from_exclusive_nodes values1 values2`.  The Python function falls
off the end (returning `None`, which is falsy) when the branches differ but
form one of the listed body/else or body/except combinations; its sole
caller only tests truthiness, so that path is `false` here. -/
def areFromExclusiveNodes (values1 values2 : Branch × Nat) : Bool :=
  let (stmt1Branch, stmt1Num) := values1
  let (stmt2Branch, stmt2Num) := values2
  if stmt1Branch ≠ stmt2Branch then
    if ¬((stmt2Branch = Branch.body ∧ stmt1Branch = Branch.els) ∨
         (stmt1Branch = Branch.body ∧ stmt2Branch = Branch.els) ∨
         (stmt2Branch = Branch.body ∧ stmt1Branch = Branch.exc) ∨
         (stmt1Branch = Branch.body ∧ stmt2Branch = Branch.exc)) then
      true
    else false
  else stmt1Num ≠ stmt2Num

/-- Lookup in the `children` dictionary built by `are_exclusive` (here an
association list whose keys are unique on acyclic chains). -/
def lookupChild (cmap : List (Nat × Nat)) (n : Nat) : Option Nat :=
  match cmap.find? (fun p => p.1 == n) with
  | some p => some p.2
  | none => none

/-- The branch comparison `are_exclusive` performs once the climbing loop
has found the common parent `node`: `e1` is `children[node]` (stmt1's entry
child) and `prev` is `previous` (stmt2's entry child).  `none` models the
`ASTNGError` raised by `_try_except_from_branch`. -/
def decideAtNode (g : Graph) (node e1 prev : Nat) : Option Bool :=
  match g.kind node with
  | NodeKind.ifKind => some (decide (prev ≠ e1))
  | NodeKind.tryKind d =>
    if prev = e1 then some false
    else
      match tryExceptFromBranch d e1, tryExceptFromBranch d prev with
      | some v1, some v2 => some (areFromExclusiveNodes v1 v2)
      | _, _ => none
  | NodeKind.other => some false

/-- The first loop of `are_exclusive` (indexing stmt1's parents): the list
of pairs `(ancestor, entry child at that ancestor)`, nearest ancestor
first.  The fuel argument is exact whenever it is at least `g.depth n`
(each parent step strictly decreases `depth`). -/
def chainAux (g : Graph) : Nat → Nat → List (Nat × Nat)
  | 0, _ => []
  | f + 1, n =>
    match g.parent n with
    | none => []
    | some p => (p, n) :: chainAux g f p

/-- `stmt1_parents` together with `children`: the ancestor/entry-child
chain of `n`, computed with exact fuel `g.depth n`. -/
def chainFrom (g : Graph) (n : Nat) : List (Nat × Nat) :=
  chainAux g (g.depth n) n

/-- The second loop of `are_exclusive` (climbing among stmt2's parents):
walk upward from `prev`, and at the first ancestor present in `cmap`
perform the branch comparison; falling off the root returns `False`.
Fuel is exact whenever it is at least `g.depth prev`. -/
def climbAux (g : Graph) (cmap : List (Nat × Nat)) : Nat → Nat → Option Bool
  | 0, _ => some false
  | f + 1, prev =>
    match g.parent prev with
    | none => some false
    | some node =>
      match lookupChild cmap node with
      | some e1 => decideAtNode g node e1 prev
      | none => climbAux g cmap f node

/-- The climbing loop of `are_exclusive` with exact fuel. -/
def climbFrom (g : Graph) (cmap : List (Nat × Nat)) (prev : Nat) : Option Bool :=
  climbAux g cmap (g.depth prev) prev

/-- `are_exclusive stmt1 stmt2`: `some b` is a normal return of `b`;
`none` is the `ASTNGError` raised out of `_try_except_from_branch`. -/
def areExclusive (g : Graph) (stmt1 stmt2 : Nat) : Option Bool :=
  climbFrom g (chainFrom g stmt1) stmt2

/-! ### Concrete graphs for the `are_exclusive` scenarios

`gIf` models `if cond: A; C else: B` with the branch sequences wrapped in
statement-list nodes as the AST library produces them:
node 0 is the `If`, node 1 the then-branch wrapper, node 2 the else-branch
wrapper, nodes 3 and 4 the sequential statements A and C in the then
branch, node 5 the statement B in the else branch. -/

def gIf : Graph where
  parent := fun n =>
    if n = 1 then some 0 else if n = 2 then some 0
    else if n = 3 then some 1 else if n = 4 then some 1
    else if n = 5 then some 2 else none
  kind := fun n => if n = 0 then NodeKind.ifKind else NodeKind.other
  depth := fun n => if n = 0 then 0 else if n = 1 then 1 else if n = 2 then 1 else 2
  parent_depth := by
    intro n p h
    dsimp only at h ⊢
    split_ifs at h <;> simp_all <;> subst_vars <;> decide

/-- Structure of the `TryExcept` in `try: A except E1: B except E2: C
else: E`: body `[1]`, handlers `[[2], [3]]`, else clause `4`. -/
def dTry : TryData where
  body := [1]
  orelse := some 4
  handlers := [[2], [3]]

/-- Graph for the try/except scenario: node 0 is the `TryExcept`, node 1
the body statement A, nodes 2 and 3 the handler statements B and C, node 4
the else-clause statement. -/
def gTry : Graph where
  parent := fun n =>
    if n = 1 then some 0 else if n = 2 then some 0
    else if n = 3 then some 0 else if n = 4 then some 0 else none
  kind := fun n => if n = 0 then NodeKind.tryKind dTry else NodeKind.other
  depth := fun n => if n = 0 then 0 else 1
  parent_depth := by
    intro n p h
    dsimp only at h ⊢
    split_ifs at h <;> simp_all <;> subst_vars <;> decide

/-- A `TryExcept` with body `[1]` and no handlers or else clause. -/
def dBad : TryData where
  body := [1]
  orelse := none
  handlers := []

/-- Graph exhibiting the branch-classification fault: node 9 hangs off the
`TryExcept` node 0 without being in any of its branch sequences. -/
def gBad : Graph where
  parent := fun n => if n = 1 then some 0 else if n = 9 then some 0 else none
  kind := fun n => if n = 0 then NodeKind.tryKind dBad else NodeKind.other
  depth := fun n => if n = 0 then 0 else 1
  parent_depth := by
    intro n p h
    dsimp only at h ⊢
    split_ifs at h <;> simp_all <;> subst_vars <;> decide

/-! ### The tree walker `ASTWalker.walk`

The walker consumes a tree through `node.get_children()`; here that is a
children function on node ids.  The `depth` field again witnesses that the
child relation is well founded, so walking terminates as it does on the
finite trees the source receives; sharing (one id reachable twice), which
is what the walker's `_done` set guards against, is still expressible.
The handler's resolved enter/leave callbacks are modelled by the events
they receive plus a flag telling whether the callback raises the
`IgnoreChild` signal. -/

/-- A tree seen through `get_children`, as `ASTWalker.walk` consumes it. -/
structure TGraph where
  childrenOf : Nat → List Nat
  depth : Nat → Nat
  children_depth : ∀ n c, c ∈ childrenOf n → depth c < depth n

/-- One observable callback invocation performed by the walker. -/
inductive Event where
  | enter (n : Nat)
  | leave (n : Nat)
  | setContext (parent child : Nat)
deriving DecidableEq

/-- A handler object: whether the resolved enter (`visit_*`) callback and
the resolved leave (`leave_*`) callback raise `IgnoreChild` on a node. -/
structure Handler where
  enterSignal : Nat → Bool
  leaveSignal : Nat → Bool

/-- The exceptions that can escape `ASTWalker.walk`: the `AssertionError`
of the `_done` revisit check, the `assert child_node is not node` check,
and an `IgnoreChild` raised by a leave callback (which `walk` does not
catch, since its `try` only wraps `self.visit(node)`). -/
inductive WalkErr where
  | revisit (n : Nat)
  | selfChild (n : Nat)
  | leaveEscape (n : Nat)
deriving DecidableEq

/-- Outcome of a (sub)walk: the callback trace, the final `_done` set, and
the escaping exception if any. -/
structure WalkResult where
  trace : List Event
  done : List Nat
  err : Option WalkErr
deriving DecidableEq

/-- The `for child_node in node.get_children()` loop of `walk`:
`set_context(node, child)`, the `child is not node` assertion, then the
recursive walk (`wa`), threading `_done` and aborting on any exception. -/
def walkList (wa : Nat → List Nat → WalkResult) (i : Nat) :
    List Nat → List Nat → WalkResult
  | [], done => ⟨[], done, none⟩
  | c :: cs, done =>
    if c = i then ⟨[Event.setContext i c], done, some (WalkErr.selfChild i)⟩
    else
      let r := wa c done
      match r.err with
      | some e => ⟨Event.setContext i c :: r.trace, r.done, some e⟩
      | none =>
        let r2 := walkList wa i cs r.done
        ⟨Event.setContext i c :: (r.trace ++ r2.trace), r2.done, r2.err⟩

/-- `ASTWalker.walk(node, _done)`: revisit check, enter callback (whose
`IgnoreChild` is caught and suppresses the children loop), children loop,
then the leave callback, which runs even after a skip but not after an
escaping exception.  Fuel is exact whenever it exceeds `depth n`. -/
def walkAuxF (G : TGraph) (h : Handler) : Nat → Nat → List Nat → WalkResult
  | 0, _, done => ⟨[], done, none⟩
  | f + 1, n, done =>
    if n ∈ done then ⟨[], done, some (WalkErr.revisit n)⟩
    else
      let done1 := n :: done
      if h.enterSignal n then
        if h.leaveSignal n then
          ⟨[Event.enter n, Event.leave n], done1, some (WalkErr.leaveEscape n)⟩
        else ⟨[Event.enter n, Event.leave n], done1, none⟩
      else
        let r := walkList (walkAuxF G h f) n (G.childrenOf n) done1
        match r.err with
        | some e => ⟨Event.enter n :: r.trace, r.done, some e⟩
        | none =>
          if h.leaveSignal n then
            ⟨Event.enter n :: (r.trace ++ [Event.leave n]), r.done,
              some (WalkErr.leaveEscape n)⟩
          else ⟨Event.enter n :: (r.trace ++ [Event.leave n]), r.done, none⟩

/-- A full `walk(root)` call (fresh `_done` set, exact fuel). -/
def walk (G : TGraph) (h : Handler) (root : Nat) : WalkResult :=
  walkAuxF G h (G.depth root + 1) root []

/-- Preorder id list of the subtree under `n` (with fuel). -/
def preIdsF (G : TGraph) : Nat → Nat → List Nat
  | 0, _ => []
  | f + 1, n => n :: ((G.childrenOf n).map (preIdsF G f)).flatten

/-- Preorder id list of the subtree under `n`; a tree input is one whose
root yields a duplicate-free list. -/
def treeIds (G : TGraph) (n : Nat) : List Nat :=
  preIdsF G (G.depth n + 1) n

/-- The trace a signal-free-leave walk produces: a skipped node (enter
signalled `IgnoreChild`) contributes only its enter and leave events; an
unskipped node wraps its children's blocks, each preceded by the
`set_context` event (with fuel). -/
def sigTraceF (G : TGraph) (h : Handler) : Nat → Nat → List Event
  | 0, _ => []
  | f + 1, n =>
    if h.enterSignal n then [Event.enter n, Event.leave n]
    else
      Event.enter n ::
        (((G.childrenOf n).map (fun c => Event.setContext n c :: sigTraceF G h f c)).flatten
          ++ [Event.leave n])

/-- The ids a walk actually visits, respecting skip signals (with fuel). -/
def sigIdsF (G : TGraph) (h : Handler) : Nat → Nat → List Nat
  | 0, _ => []
  | f + 1, n =>
    if h.enterSignal n then [n]
    else n :: ((G.childrenOf n).map (sigIdsF G h f)).flatten

/-- Canonical-fuel version of `sigTraceF`. -/
def sigTraceC (G : TGraph) (h : Handler) (n : Nat) : List Event :=
  sigTraceF G h (G.depth n + 1) n

/-- Canonical-fuel version of `sigIdsF`. -/
def sigIdsC (G : TGraph) (h : Handler) (n : Nat) : List Nat :=
  sigIdsF G h (G.depth n + 1) n

/-! ### The locals walker `LocalsVisitor.visit`

Descent follows the optional locals mapping, which may be cyclic, so the
recursion is modelled with fuel; the claims proved about it are either
fuel-uniform (the memoization invariants) or evaluated at concrete inputs
with ample fuel. -/

/-- A locals reference graph: `locals? n = none` models a node without a
`locals` attribute, `some l` the sequence of nodes its mapping yields. -/
structure LGraph where
  locals? : Nat → Option (List Nat)

/-- A `LocalsVisitor` handler: which of the resolved enter/leave methods
exist, whether the enter method raises `IgnoreChild`, and the value the
leave method returns. -/
structure LHandler where
  hasEnter : Nat → Bool
  enterSignal : Nat → Bool
  hasLeave : Nat → Bool
  leaveValue : Nat → Nat

/-- The `for local_node in node.values()` loop of `LocalsVisitor.visit`:
visit each referenced node in order, threading the visited map and
concatenating traces; the loop discards the recursive results. -/
def lvisitList (lv : Nat → List Nat → List Nat × List Event) :
    List Nat → List Nat → List Nat × List Event
  | [], vis => (vis, [])
  | c :: cs, vis =>
    let r := lv c vis
    let r2 := lvisitList lv cs r.1
    (r2.1, r.2 ++ r2.2)

/-- `LocalsVisitor.visit(node)`: return immediately if memoized, else mark
visited, run the enter method if present (its `IgnoreChild` suppresses
recursion), recurse through the locals mapping, and return the leave
method's value (or `None` when absent).  Result: (returned value, visited
map, callback trace). -/
def lvisitF (g : LGraph) (h : LHandler) :
    Nat → Nat → List Nat → Option Nat × List Nat × List Event
  | 0, _, vis => (none, vis, [])
  | f + 1, n, vis =>
    if n ∈ vis then (none, vis, [])
    else
      let vis1 := n :: vis
      let enterTr := if h.hasEnter n then [Event.enter n] else []
      let recurse := !(h.hasEnter n && h.enterSignal n)
      let st :=
        if recurse then
          match g.locals? n with
          | some ns => lvisitList (fun c v => (lvisitF g h f c v).2) ns vis1
          | none => (vis1, [])
        else (vis1, [])
      if h.hasLeave n then
        (some (h.leaveValue n), st.1, (enterTr ++ st.2) ++ [Event.leave n])
      else (none, st.1, enterTr ++ st.2)

/-! ### Concrete walker and locals inputs -/

/-- A handler raising no signals. -/
def hNone : Handler where
  enterSignal := fun _ => false
  leaveSignal := fun _ => false

/-- A handler whose leave callback always raises `IgnoreChild`. -/
def hLeaveSig : Handler where
  enterSignal := fun _ => false
  leaveSignal := fun _ => true

/-- A handler whose enter callback raises `IgnoreChild` exactly on node 1. -/
def hSkip1 : Handler where
  enterSignal := fun n => n = 1
  leaveSignal := fun _ => false

/-- A single-node tree. -/
def tSolo : TGraph where
  childrenOf := fun _ => []
  depth := fun _ => 0
  children_depth := by intro n c h; simp at h

/-- A three-level chain 0 → 1 → 2 (node 1 has a proper subtree to skip). -/
def tChain : TGraph where
  childrenOf := fun n => if n = 0 then [1] else if n = 1 then [2] else []
  depth := fun n => if n = 0 then 2 else if n = 1 then 1 else 0
  children_depth := by
    intro n c h
    dsimp only at h ⊢
    split_ifs at h <;> simp_all

/-- A root with two children 1 and 2. -/
def tTwo : TGraph where
  childrenOf := fun n => if n = 0 then [1, 2] else []
  depth := fun n => if n = 0 then 1 else 0
  children_depth := by
    intro n c h
    dsimp only at h ⊢
    split_ifs at h <;> simp_all
    omega

/-- A shared child: node 1 appears twice among the root's children, which
violates the tree (acyclicity/uniqueness) invariant the walker checks. -/
def tDup : TGraph where
  childrenOf := fun n => if n = 0 then [1, 1] else []
  depth := fun n => if n = 0 then 1 else 0
  children_depth := by
    intro n c h
    dsimp only at h ⊢
    split_ifs at h <;> simp_all

/-- Locals graph in which node 3 is reachable from the root 0 through two
different parents 1 and 2. -/
def lgTwo : LGraph where
  locals? := fun n =>
    if n = 0 then some [1, 2] else if n = 1 then some [3]
    else if n = 2 then some [3] else some []

/-- A locals handler with all methods present, no signals, and leave
returning `n + 100` on node `n`. -/
def lhFull : LHandler where
  hasEnter := fun _ => true
  enterSignal := fun _ => false
  hasLeave := fun _ => true
  leaveValue := fun n => n + 100

/-! ## Helper lemmas for the exclusivity oracle -/

theorem chainAux_congr (g : Graph) :
    ∀ f1 f2 n, g.depth n ≤ f1 → g.depth n ≤ f2 →
      chainAux g f1 n = chainAux g f2 n := by
  intro f1
  induction f1 with
  | zero =>
    intro f2 n h1 h2
    cases f2 with
    | zero => rfl
    | succ f2 =>
      cases hp : g.parent n with
      | none => simp [chainAux, hp]
      | some p =>
        have := g.parent_depth n p hp
        omega
  | succ f1 ih =>
    intro f2 n h1 h2
    cases f2 with
    | zero =>
      cases hp : g.parent n with
      | none => simp [chainAux, hp]
      | some p =>
        have := g.parent_depth n p hp
        omega
    | succ f2 =>
      cases hp : g.parent n with
      | none => simp [chainAux, hp]
      | some p =>
        have hd := g.parent_depth n p hp
        simp only [chainAux, hp]
        rw [ih f2 p (by omega) (by omega)]

/-- Step of the parent-indexing loop at a root. -/
theorem chainFrom_none (g : Graph) (n : Nat) (hp : g.parent n = none) :
    chainFrom g n = [] := by
  unfold chainFrom
  cases hdn : g.depth n with
  | zero => rfl
  | succ k => simp [chainAux, hp]

/-- Step of the parent-indexing loop under a parent. -/
theorem chainFrom_some (g : Graph) (n p : Nat) (hp : g.parent n = some p) :
    chainFrom g n = (p, n) :: chainFrom g p := by
  unfold chainFrom
  have hd := g.parent_depth n p hp
  cases hdn : g.depth n with
  | zero => omega
  | succ k =>
    simp only [chainAux, hp]
    rw [chainAux_congr g k (g.depth p) p (by omega) (by omega)]

theorem climbAux_congr (g : Graph) (cmap : List (Nat × Nat)) :
    ∀ f1 f2 n, g.depth n ≤ f1 → g.depth n ≤ f2 →
      climbAux g cmap f1 n = climbAux g cmap f2 n := by
  intro f1
  induction f1 with
  | zero =>
    intro f2 n h1 h2
    cases f2 with
    | zero => rfl
    | succ f2 =>
      cases hp : g.parent n with
      | none => simp [climbAux, hp]
      | some p =>
        have := g.parent_depth n p hp
        omega
  | succ f1 ih =>
    intro f2 n h1 h2
    cases f2 with
    | zero =>
      cases hp : g.parent n with
      | none => simp [climbAux, hp]
      | some p =>
        have := g.parent_depth n p hp
        omega
    | succ f2 =>
      cases hp : g.parent n with
      | none => simp [climbAux, hp]
      | some p =>
        have hd := g.parent_depth n p hp
        simp only [climbAux, hp]
        cases hl : lookupChild cmap p with
        | some e1 => rfl
        | none => exact ih f2 p (by omega) (by omega)

/-- The climbing loop at a root returns `False`. -/
theorem climbFrom_none (g : Graph) (cmap : List (Nat × Nat)) (prev : Nat)
    (hp : g.parent prev = none) : climbFrom g cmap prev = some false := by
  unfold climbFrom
  cases hdn : g.depth prev with
  | zero => rfl
  | succ k => simp [climbAux, hp]

/-- The climbing loop on a hit performs the branch comparison. -/
theorem climbFrom_found (g : Graph) (cmap : List (Nat × Nat)) (prev node e1 : Nat)
    (hp : g.parent prev = some node) (hl : lookupChild cmap node = some e1) :
    climbFrom g cmap prev = decideAtNode g node e1 prev := by
  unfold climbFrom
  have hd := g.parent_depth prev node hp
  cases hdn : g.depth prev with
  | zero => omega
  | succ k => simp [climbAux, hp, hl]

/-- The climbing loop on a miss climbs one level. -/
theorem climbFrom_skip (g : Graph) (cmap : List (Nat × Nat)) (prev node : Nat)
    (hp : g.parent prev = some node) (hl : lookupChild cmap node = none) :
    climbFrom g cmap prev = climbFrom g cmap node := by
  unfold climbFrom
  have hd := g.parent_depth prev node hp
  cases hdn : g.depth prev with
  | zero => omega
  | succ k =>
    simp only [climbAux, hp, hl]
    exact climbAux_congr g cmap k (g.depth node) node (by omega) (by omega)

/-- Equal entry children always compare to `False`, whatever the kind. -/
theorem decideAtNode_self (g : Graph) (l e : Nat) :
    decideAtNode g l e e = some false := by
  unfold decideAtNode
  cases g.kind l with
  | ifKind => simp
  | tryKind d => simp
  | other => rfl

/-- Everything on the ancestor chain lies strictly above `n`, and depths
strictly decrease along the chain. -/
theorem chain_depth (g : Graph) :
    ∀ k n, g.depth n ≤ k →
      (∀ x ∈ chainFrom g n, g.depth x.1 < g.depth n) ∧
      List.Pairwise (fun x y => g.depth y.1 < g.depth x.1) (chainFrom g n) := by
  intro k
  induction k with
  | zero =>
    intro n hk
    cases hp : g.parent n with
    | none => rw [chainFrom_none g n hp]; simp
    | some p =>
      have := g.parent_depth n p hp
      omega
  | succ k ih =>
    intro n hk
    cases hp : g.parent n with
    | none => rw [chainFrom_none g n hp]; simp
    | some p =>
      have hd := g.parent_depth n p hp
      have hp2 := ih p (by omega)
      rw [chainFrom_some g n p hp]
      constructor
      · intro x hx
        rcases List.mem_cons.mp hx with hx | hx
        · subst hx; exact hd
        · exact lt_trans (hp2.1 x hx) hd
      · exact List.Pairwise.cons (fun y hy => hp2.1 y hy) hp2.2

/-- The ancestor ids on a chain are pairwise distinct. -/
theorem chain_fst_nodup (g : Graph) (n : Nat) :
    ((chainFrom g n).map Prod.fst).Nodup := by
  have h := (chain_depth g (g.depth n) n le_rfl).2
  have h2 : List.Pairwise (fun x y : Nat × Nat => x.1 ≠ y.1) (chainFrom g n) :=
    h.imp (fun {a b} hab hh => by rw [hh] at hab; exact lt_irrefl _ hab)
  exact List.Pairwise.map Prod.fst (fun {a b} hab => hab) h2

theorem lookupChild_none_iff (cmap : List (Nat × Nat)) (n : Nat) :
    lookupChild cmap n = none ↔ ∀ x ∈ cmap, x.1 ≠ n := by
  unfold lookupChild
  cases hf : cmap.find? (fun p => p.1 == n) with
  | none =>
    simp only [true_iff]
    rw [List.find?_eq_none] at hf
    intro x hx
    simpa using hf x hx
  | some p =>
    simp only [reduceCtorEq, false_iff]
    push_neg
    refine ⟨p, List.mem_of_find?_eq_some hf, ?_⟩
    simpa using List.find?_some hf

theorem lookupChild_mem (cmap : List (Nat × Nat)) (n e : Nat)
    (h : lookupChild cmap n = some e) : (n, e) ∈ cmap := by
  unfold lookupChild at h
  cases hf : cmap.find? (fun p => p.1 == n) with
  | none => rw [hf] at h; cases h
  | some p =>
    rw [hf] at h
    injection h with h2
    have hm := List.mem_of_find?_eq_some hf
    have hp1 : p.1 = n := by simpa using List.find?_some hf
    obtain ⟨a, b⟩ := p
    have : a = n := hp1
    have hb : b = e := h2
    subst this
    subst hb
    exact hm

theorem lookupChild_cons_self (rest : List (Nat × Nat)) (p e : Nat) :
    lookupChild ((p, e) :: rest) p = some e := by
  simp [lookupChild, List.find?]

/-- With pairwise-distinct keys, the association lookup finds any listed
pair. -/
theorem lookupChild_of_mem :
    ∀ (cmap : List (Nat × Nat)), (cmap.map Prod.fst).Nodup →
      ∀ n e, (n, e) ∈ cmap → lookupChild cmap n = some e := by
  intro cmap
  induction cmap with
  | nil => intro _ n e hm; cases hm
  | cons a rest ih =>
    intro hnd n e hm
    rcases List.mem_cons.mp hm with rfl | hm
    · exact lookupChild_cons_self rest n e
    · have ha : a.1 ≠ n := by
        intro hh
        have hmm : n ∈ rest.map Prod.fst := by
          have := List.mem_map_of_mem Prod.fst hm
          simpa using this
        simp only [List.map_cons, List.nodup_cons] at hnd
        exact hnd.1 (hh ▸ hmm)
      have hstep : lookupChild (a :: rest) n = lookupChild rest n := by
        have hbeq : (a.1 == n) = false := by simpa using ha
        simp [lookupChild, List.find?, hbeq]
      rw [hstep]
      refine ih ?_ n e hm
      simp only [List.map_cons, List.nodup_cons] at hnd
      exact hnd.2

/-- If no ancestor of `b` is on the indexed chain, the climbing loop falls
off the root and returns `False`. -/
theorem climb_miss (g : Graph) (cmap : List (Nat × Nat)) :
    ∀ k b, g.depth b ≤ k →
      (∀ x ∈ chainFrom g b, lookupChild cmap x.1 = none) →
      climbFrom g cmap b = some false := by
  intro k
  induction k with
  | zero =>
    intro b hk hmiss
    cases hp : g.parent b with
    | none => exact climbFrom_none g cmap b hp
    | some p =>
      have := g.parent_depth b p hp
      omega
  | succ k ih =>
    intro b hk hmiss
    cases hp : g.parent b with
    | none => exact climbFrom_none g cmap b hp
    | some p =>
      have hd := g.parent_depth b p hp
      have hchain := chainFrom_some g b p hp
      have hl : lookupChild cmap p = none :=
        hmiss (p, b) (by rw [hchain]; exact List.mem_cons_self _ _)
      rw [climbFrom_skip g cmap b p hp hl]
      exact ih p (by omega)
        (fun x hx => hmiss x (by rw [hchain]; exact List.mem_cons_of_mem _ hx))

/-- The climbing loop stops at the first ancestor of `b` present in the
indexed chain and performs the branch comparison there. -/
theorem climb_reach (g : Graph) (cmap : List (Nat × Nat)) :
    ∀ pre b l e1 e2 rest, chainFrom g b = pre ++ (l, e2) :: rest →
      (∀ x ∈ pre, lookupChild cmap x.1 = none) →
      lookupChild cmap l = some e1 →
      climbFrom g cmap b = decideAtNode g l e1 e2 := by
  intro pre
  induction pre with
  | nil =>
    intro b l e1 e2 rest hchain hmiss hl
    cases hp : g.parent b with
    | none =>
      rw [chainFrom_none g b hp] at hchain
      simp at hchain
    | some p =>
      rw [chainFrom_some g b p hp] at hchain
      simp only [List.nil_append] at hchain
      injection hchain with h1 h2
      injection h1 with hlp he2
      subst hlp
      subst he2
      exact climbFrom_found g cmap b p e1 hp hl
  | cons q pre ih =>
    intro b l e1 e2 rest hchain hmiss hl
    cases hp : g.parent b with
    | none =>
      rw [chainFrom_none g b hp] at hchain
      simp at hchain
    | some p =>
      rw [chainFrom_some g b p hp] at hchain
      simp only [List.cons_append] at hchain
      injection hchain with h1 h2
      have hq : lookupChild cmap p = none := by
        have := hmiss q (List.mem_cons_self _ _)
        rw [← h1] at this
        exact this
      rw [climbFrom_skip g cmap b p hp hq]
      exact ih p l e1 e2 rest h2 (fun x hx => hmiss x (List.mem_cons_of_mem _ hx)) hl

/-- Every ancestor on the chain splits it into the part below and the
ancestor's own chain. -/
theorem chain_suffix (g : Graph) :
    ∀ k n p, g.depth n ≤ k → p ∈ (chainFrom g n).map Prod.fst →
      ∃ pre e, chainFrom g n = pre ++ (p, e) :: chainFrom g p := by
  intro k
  induction k with
  | zero =>
    intro n p hk hmem
    cases hp : g.parent n with
    | none => rw [chainFrom_none g n hp] at hmem; cases hmem
    | some q =>
      have := g.parent_depth n q hp
      omega
  | succ k ih =>
    intro n p hk hmem
    cases hp : g.parent n with
    | none => rw [chainFrom_none g n hp] at hmem; cases hmem
    | some q =>
      have hchain := chainFrom_some g n q hp
      have hd := g.parent_depth n q hp
      rw [hchain] at hmem
      simp only [List.map_cons, List.mem_cons] at hmem
      rcases hmem with hmem | hmem
      · subst hmem
        exact ⟨[], n, by simpa using hchain⟩
      · obtain ⟨pre, e, hpre⟩ := ih q p (by omega) hmem
        refine ⟨(q, n) :: pre, e, ?_⟩
        rw [hchain, hpre]
        rfl

/-! ## Claims C9 and C10 -/

/-- Claim C9: `are_exclusive` is irreflexive — for every statement node A
in a tree, `are_exclusive(A, A) == False`. -/
theorem claimC9 (g : Graph) (a : Nat) : areExclusive g a a = some false := by
  unfold areExclusive
  cases hp : g.parent a with
  | none => exact climbFrom_none g _ a hp
  | some p =>
    have hchain := chainFrom_some g a p hp
    have hl : lookupChild (chainFrom g a) p = some a := by
      rw [hchain]
      exact lookupChild_cons_self _ p a
    rw [climbFrom_found g _ a p a hp hl]
    exact decideAtNode_self g p a

/-- Claim C10: for every pair of statements where one is an ancestor of the
other (one lies on the other's parent chain), `are_exclusive` returns
`False`: both paths reach the meeting point through the same entry child. -/
theorem claimC10 (g : Graph) (a b : Nat)
    (h : b ∈ (chainFrom g a).map Prod.fst ∨ a ∈ (chainFrom g b).map Prod.fst) :
    areExclusive g a b = some false := by
  unfold areExclusive
  rcases h with h | h
  · obtain ⟨pre, e, hdec⟩ := chain_suffix g (g.depth a) a b le_rfl h
    cases hp : g.parent b with
    | none => exact climbFrom_none g _ b hp
    | some p =>
      have hb := chainFrom_some g b p hp
      have hmem : (p, b) ∈ chainFrom g a := by
        rw [hdec, hb]
        exact List.mem_append_right _ (List.mem_cons_of_mem _ (List.mem_cons_self _ _))
      have hl : lookupChild (chainFrom g a) p = some b :=
        lookupChild_of_mem _ (chain_fst_nodup g a) p b hmem
      rw [climbFrom_found g _ b p b hp hl]
      exact decideAtNode_self g p b
  · obtain ⟨preB, eB, hdecB⟩ := chain_suffix g (g.depth b) b a le_rfl h
    have hmiss : ∀ x ∈ preB ++ [(a, eB)], lookupChild (chainFrom g a) x.1 = none := by
      intro x hx
      rw [lookupChild_none_iff]
      intro z hz hzx
      have hza := (chain_depth g (g.depth a) a le_rfl).1 z hz
      rcases List.mem_append.mp hx with hx | hx
      · have hpw := (chain_depth g (g.depth b) b le_rfl).2
        rw [hdecB] at hpw
        have hax : g.depth a < g.depth x.1 :=
          (List.pairwise_append.mp hpw).2.2 x hx (a, eB) (List.mem_cons_self _ _)
        rw [hzx] at hza
        omega
      · rcases List.mem_singleton.mp hx with rfl
        simp only at hzx
        rw [hzx] at hza
        omega
    cases hpa : g.parent a with
    | none =>
      have hca : chainFrom g a = [] := chainFrom_none g a hpa
      have hdecB2 : chainFrom g b = preB ++ [(a, eB)] := by
        rw [hdecB, hca]
      exact climb_miss g _ (g.depth b) b le_rfl (fun x hx => hmiss x (hdecB2 ▸ hx))
    | some p =>
      have hcp := chainFrom_some g a p hpa
      have hdecB3 : chainFrom g b = (preB ++ [(a, eB)]) ++ (p, a) :: chainFrom g p := by
        rw [hdecB, hcp]
        simp
      have hlp : lookupChild (chainFrom g a) p = some a := by
        rw [hcp]
        exact lookupChild_cons_self _ p a
      rw [climb_reach g _ (preB ++ [(a, eB)]) b p a a (chainFrom g p) hdecB3 hmiss hlp]
      exact decideAtNode_self g p a

/-- Witness for claim C10 at a concrete input: in `gIf` the then-branch
wrapper (node 1) is an ancestor of statement A (node 3). -/
theorem claimC10_witness :
    (1 ∈ (chainFrom gIf 3).map Prod.fst ∨ 3 ∈ (chainFrom gIf 1).map Prod.fst) ∧
    areExclusive gIf 3 1 = some false :=
  ⟨Or.inl (by decide), claimC10 gIf 3 1 (Or.inl (by decide))⟩

/-! ## Claim C6: branch classification -/

theorem findHandlerIdx_none_iff (stmt : Nat) :
    ∀ (hs : List (List Nat)) (i : Nat),
      findHandlerIdx stmt hs i = none ↔ ∀ hb ∈ hs, stmt ∉ hb := by
  intro hs
  induction hs with
  | nil => intro i; simp [findHandlerIdx]
  | cons hb0 hs ih =>
    intro i
    by_cases hm : stmt ∈ hb0
    · simp [findHandlerIdx, hm]
    · simp [findHandlerIdx, hm, ih (i + 1)]

theorem findHandlerIdx_at (stmt : Nat) :
    ∀ (hs : List (List Nat)) (i j : Nat) (hb : List Nat),
      hs[j]? = some hb → stmt ∈ hb →
      (∀ j' hb', j' < j → hs[j']? = some hb' → stmt ∉ hb') →
      findHandlerIdx stmt hs i = some (i + j) := by
  intro hs
  induction hs with
  | nil => intro i j hb hj; simp at hj
  | cons hb0 hs ih =>
    intro i j hb hj hmem hbefore
    cases j with
    | zero =>
      simp only [List.getElem?_cons_zero, Option.some_inj] at hj
      subst hj
      simp [findHandlerIdx, hmem]
    | succ j =>
      have h0 : stmt ∉ hb0 := hbefore 0 hb0 (Nat.succ_pos j) (by simp)
      have hrec := ih (i + 1) j hb (by simpa using hj) hmem
        (fun j' hb' hlt hj' => hbefore (j' + 1) hb' (by omega) (by simpa using hj'))
      simp only [findHandlerIdx, h0, if_neg]
      exact hrec.trans (congrArg some (by omega))

/-- Claim C6: branch classification of an entry child against an exception
construct returns `('body', _)` for a member of the body, `('else', _)` for
the else clause, `('except', i)` for a member of the i-th handler's body,
and raises the fatal `ASTNGError` (surfacing through `are_exclusive`, as
the last conjunct shows on `gBad`) exactly when nothing matches. -/
theorem claimC6 :
    (∀ (d : TryData) (stmt : Nat),
      tryExceptFromBranch d stmt = none ↔
        (stmt ∉ d.body ∧ d.orelse ≠ some stmt ∧ ∀ hb ∈ d.handlers, stmt ∉ hb)) ∧
    (∀ (d : TryData) (stmt : Nat), stmt ∈ d.body →
      tryExceptFromBranch d stmt = some (Branch.body, 1)) ∧
    (∀ (d : TryData) (stmt : Nat), stmt ∉ d.body → d.orelse = some stmt →
      tryExceptFromBranch d stmt = some (Branch.els, 1)) ∧
    (∀ (d : TryData) (stmt i : Nat) (hb : List Nat),
      stmt ∉ d.body → d.orelse ≠ some stmt →
      d.handlers[i]? = some hb → stmt ∈ hb →
      (∀ j hb', j < i → d.handlers[j]? = some hb' → stmt ∉ hb') →
      tryExceptFromBranch d stmt = some (Branch.exc, i)) ∧
    areExclusive gBad 1 9 = none := by
  refine ⟨?_, ?_, ?_, ?_, by decide⟩
  · intro d stmt
    constructor
    · intro h
      unfold tryExceptFromBranch at h
      by_cases hbm : stmt ∈ d.body
      · rw [if_pos hbm] at h; cases h
      · rw [if_neg hbm] at h
        by_cases ho : d.orelse = some stmt
        · rw [if_pos ho] at h; cases h
        · rw [if_neg ho] at h
          refine ⟨hbm, ho, ?_⟩
          cases hf : findHandlerIdx stmt d.handlers 0 with
          | some i => rw [hf] at h; cases h
          | none => exact (findHandlerIdx_none_iff stmt d.handlers 0).mp hf
    · rintro ⟨hbm, ho, hall⟩
      unfold tryExceptFromBranch
      rw [if_neg hbm, if_neg ho]
      rw [(findHandlerIdx_none_iff stmt d.handlers 0).mpr hall]
  · intro d stmt hbm
    unfold tryExceptFromBranch
    rw [if_pos hbm]
  · intro d stmt hbm ho
    unfold tryExceptFromBranch
    rw [if_neg hbm, if_pos ho]
  · intro d stmt i hb hbm ho hj hmem hbefore
    unfold tryExceptFromBranch
    rw [if_neg hbm, if_neg ho]
    have h2 := findHandlerIdx_at stmt d.handlers 0 i hb hj hmem hbefore
    rw [Nat.zero_add] at h2
    rw [h2]

/-- Witness for claim C6 at concrete inputs: in `dTry`, node 1 classifies
as body, node 4 as else, node 3 as the second handler, and an unrelated
node classifies to the fatal error. -/
theorem claimC6_witness :
    tryExceptFromBranch dTry 1 = some (Branch.body, 1) ∧
    tryExceptFromBranch dTry 4 = some (Branch.els, 1) ∧
    tryExceptFromBranch dTry 3 = some (Branch.exc, 1) ∧
    tryExceptFromBranch dTry 9 = none :=
  ⟨claimC6.2.1 dTry 1 (by decide),
   claimC6.2.2.1 dTry 4 (by decide) (by decide),
   claimC6.2.2.2.1 dTry 3 1 [3] (by decide) (by decide) (by decide) (by decide)
     (by intro j hb' hlt hj'
         have hj0 : j = 0 := by omega
         subst hj0
         rw [show dTry.handlers[0]? = some [2] from rfl] at hj'
         injection hj' with h
         subst h
         decide),
   (claimC6.1 dTry 9).mpr ⟨by decide, by decide, by decide⟩⟩

/-! ## Claims C5 and C1: the branch comparison at the common ancestor -/

/-- Claim C5: when the lowest common ancestor found by the climb is an `If`
node, `are_exclusive` returns exactly whether the two entry children
differ.  The hypotheses state that `l` is the first ancestor of `b` (with
entry child `eB`) lying on `a`'s indexed chain (with entry child `eA`).
The two conjuncts at the end are the spec's scenarios on `gIf`
(`if cond: A; C else: B`): A vs B is exclusive, while the sequential A and
C meet below the wrapper of the then branch and are not. -/
theorem claimC5 :
    (∀ (g : Graph) (a b : Nat) (pre : List (Nat × Nat)) (l eA eB : Nat)
        (rest : List (Nat × Nat)),
      chainFrom g b = pre ++ (l, eB) :: rest →
      (∀ x ∈ pre, lookupChild (chainFrom g a) x.1 = none) →
      lookupChild (chainFrom g a) l = some eA →
      g.kind l = NodeKind.ifKind →
      areExclusive g a b = some (decide (eB ≠ eA))) ∧
    areExclusive gIf 3 5 = some true ∧
    areExclusive gIf 3 4 = some false := by
  refine ⟨?_, by decide, by decide⟩
  intro g a b pre l eA eB rest hchain hmiss hl hkind
  unfold areExclusive
  rw [climb_reach g _ pre b l eA eB rest hchain hmiss hl]
  simp [decideAtNode, hkind]

/-- Witness for claim C5: instantiating the general statement on `gIf`
with the chain of node 5 (statement B) against node 3 (statement A). -/
theorem claimC5_witness : areExclusive gIf 3 5 = some true := by
  have h := claimC5.1 gIf 3 5 [(2, 5)] 0 1 2 [] (by decide) (by decide) (by decide) rfl
  simpa using h

/-- `decideAtNode` at a `TryExcept` common parent. -/
theorem decideAtNode_try (g : Graph) (l : Nat) (d : TryData)
    (hkind : g.kind l = NodeKind.tryKind d) (e1 prev : Nat) :
    decideAtNode g l e1 prev =
      if prev = e1 then some false
      else
        match tryExceptFromBranch d e1, tryExceptFromBranch d prev with
        | some v1, some v2 => some (areFromExclusiveNodes v1 v2)
        | _, _ => none := by
  unfold decideAtNode
  rw [hkind]

/-- The tie-break table `_are_from_exclusive_nodes` actually implements:
exclusive iff same tag with different indices, or one tag is `except` and
the other `else`. -/
theorem areFromExclusiveNodes_eq_table (b1 : Branch) (n1 : Nat) (b2 : Branch) (n2 : Nat) :
    areFromExclusiveNodes (b1, n1) (b2, n2) =
      decide ((b1 = b2 ∧ n1 ≠ n2) ∨
        (b1 = Branch.exc ∧ b2 = Branch.els) ∨ (b1 = Branch.els ∧ b2 = Branch.exc)) := by
  cases b1 <;> cases b2 <;> simp [areFromExclusiveNodes]

/-- Counterexample to claim C1 on `gTry` (`try: A except E1: B except E2:
C else: E`; A = 1, B = 2, C = 3, E = 4): the claim requires
`are_exclusive(A, B) == True` (one tag `body`, the other `except`), but
the code returns `False`; the claim also requires `except` vs `else` not
to be flagged, but the code flags it. -/
theorem claimC1_counterexample :
    areExclusive gTry 1 2 = some false ∧ areExclusive gTry 2 4 = some true :=
  ⟨by decide, by decide⟩

/-- Claim C1 (amended): when the lowest common ancestor is a `TryExcept`
and both entry children classify, `are_exclusive` returns true exactly for
same tag with different handler indices, or for one tag `except` and the
other `else`; a `body` tag against `except` or `else`, and equal
classifications, are not exclusive.  In particular on `gTry`,
`are_exclusive(B, C) == True` and `are_exclusive(A, B) == False`. -/
theorem claimC1_amended :
    (∀ (g : Graph) (a b : Nat) (pre : List (Nat × Nat)) (l : Nat) (d : TryData)
        (eA eB : Nat) (rest : List (Nat × Nat)) (b1 b2 : Branch) (n1 n2 : Nat),
      chainFrom g b = pre ++ (l, eB) :: rest →
      (∀ x ∈ pre, lookupChild (chainFrom g a) x.1 = none) →
      lookupChild (chainFrom g a) l = some eA →
      g.kind l = NodeKind.tryKind d →
      tryExceptFromBranch d eA = some (b1, n1) →
      tryExceptFromBranch d eB = some (b2, n2) →
      areExclusive g a b =
        some (decide ((b1 = b2 ∧ n1 ≠ n2) ∨
          (b1 = Branch.exc ∧ b2 = Branch.els) ∨
          (b1 = Branch.els ∧ b2 = Branch.exc)))) ∧
    areExclusive gTry 2 3 = some true ∧
    areExclusive gTry 1 2 = some false := by
  refine ⟨?_, by decide, by decide⟩
  intro g a b pre l d eA eB rest b1 b2 n1 n2 hchain hmiss hl hkind hv1 hv2
  unfold areExclusive
  rw [climb_reach g _ pre b l eA eB rest hchain hmiss hl]
  rw [decideAtNode_try g l d hkind eA eB]
  by_cases he : eB = eA
  · subst he
    rw [hv1] at hv2
    injection hv2 with hv2
    injection hv2 with hb hn
    subst hb
    subst hn
    rw [if_pos rfl]
    cases b1 <;> simp
  · rw [if_neg he, hv1, hv2]
    show some (areFromExclusiveNodes (b1, n1) (b2, n2)) = _
    rw [areFromExclusiveNodes_eq_table]

/-- Witness for the amended claim C1: instantiating on `gTry` with the
two handler statements B and C. -/
theorem claimC1_witness : areExclusive gTry 2 3 = some true := by
  have h := claimC1_amended.1 gTry 2 3 [] 0 dTry 2 3 [] Branch.exc Branch.exc 0 1
    (by decide) (by decide) (by decide) rfl (by decide) (by decide)
  simpa using h

/-! ## Claim C4: symmetry of `are_exclusive` -/

theorem areFromExclusiveNodes_comm (v1 v2 : Branch × Nat) :
    areFromExclusiveNodes v1 v2 = areFromExclusiveNodes v2 v1 := by
  obtain ⟨b1, n1⟩ := v1
  obtain ⟨b2, n2⟩ := v2
  rw [areFromExclusiveNodes_eq_table, areFromExclusiveNodes_eq_table]
  refine decide_eq_decide.mpr ?_
  constructor
  · rintro (⟨h1, h2⟩ | ⟨h1, h2⟩ | ⟨h1, h2⟩)
    · exact Or.inl ⟨h1.symm, fun hh => h2 hh.symm⟩
    · exact Or.inr (Or.inr ⟨h2, h1⟩)
    · exact Or.inr (Or.inl ⟨h2, h1⟩)
  · rintro (⟨h1, h2⟩ | ⟨h1, h2⟩ | ⟨h1, h2⟩)
    · exact Or.inl ⟨h1.symm, fun hh => h2 hh.symm⟩
    · exact Or.inr (Or.inr ⟨h2, h1⟩)
    · exact Or.inr (Or.inl ⟨h2, h1⟩)

theorem decideAtNode_comm (g : Graph) (l e1 e2 : Nat) :
    decideAtNode g l e1 e2 = decideAtNode g l e2 e1 := by
  cases hk : g.kind l with
  | ifKind =>
    unfold decideAtNode
    rw [hk]
    show some (decide (e2 ≠ e1)) = some (decide (e1 ≠ e2))
    exact congrArg some (decide_eq_decide.mpr ne_comm)
  | other =>
    unfold decideAtNode
    rw [hk]
  | tryKind d =>
    rw [decideAtNode_try g l d hk e1 e2, decideAtNode_try g l d hk e2 e1]
    by_cases he : e2 = e1
    · subst he
      simp
    · rw [if_neg he, if_neg (fun hh => he hh.symm)]
      cases hv1 : tryExceptFromBranch d e1 with
      | none =>
        cases hv2 : tryExceptFromBranch d e2 with
        | none => rfl
        | some v2 => rfl
      | some v1 =>
        cases hv2 : tryExceptFromBranch d e2 with
        | none => rfl
        | some v2 =>
          show some (areFromExclusiveNodes v1 v2) = some (areFromExclusiveNodes v2 v1)
          rw [areFromExclusiveNodes_comm]

/-- Split a list at the first element satisfying `P`. -/
theorem list_first_hit {α : Type} (P : α → Prop) :
    ∀ L : List α, (∃ x ∈ L, P x) →
      ∃ pre x rest, L = pre ++ x :: rest ∧ (∀ y ∈ pre, ¬P y) ∧ P x := by
  intro L
  induction L with
  | nil => rintro ⟨x, hx, _⟩; cases hx
  | cons a L ih =>
    intro hex
    by_cases hpa : P a
    · exact ⟨[], a, L, rfl, by simp, hpa⟩
    · obtain ⟨x, hx, hpx⟩ := hex
      rcases List.mem_cons.mp hx with rfl | hx
      · exact absurd hpx hpa
      · obtain ⟨pre, y, rest, heq, hpre, hpy⟩ := ih ⟨x, hx, hpx⟩
        refine ⟨a :: pre, y, rest, by rw [heq]; rfl, ?_, hpy⟩
        intro z hz
        rcases List.mem_cons.mp hz with rfl | hz
        · exact hpa
        · exact hpre z hz

/-- A duplicate-free association list splits uniquely at a given key. -/
theorem assoc_split_unique :
    ∀ (p1 : List (Nat × Nat)) (l a : Nat) (r1 p2 : List (Nat × Nat)) (b : Nat)
      (r2 : List (Nat × Nat)),
      ((p1 ++ (l, a) :: r1).map Prod.fst).Nodup →
      p1 ++ (l, a) :: r1 = p2 ++ (l, b) :: r2 →
      p1 = p2 ∧ a = b ∧ r1 = r2 := by
  intro p1
  induction p1 with
  | nil =>
    intro l a r1 p2 b r2 hnd heq
    cases p2 with
    | nil =>
      simp only [List.nil_append] at heq
      injection heq with h1 h2
      injection h1 with _ hab
      exact ⟨rfl, hab, h2⟩
    | cons y p2 =>
      simp only [List.nil_append, List.cons_append] at heq
      injection heq with h1 h2
      exfalso
      simp only [List.nil_append, List.map_cons, List.nodup_cons] at hnd
      apply hnd.1
      rw [h2]
      simp
  | cons x p1 ih =>
    intro l a r1 p2 b r2 hnd heq
    cases p2 with
    | nil =>
      simp only [List.cons_append, List.nil_append] at heq
      injection heq with h1 h2
      exfalso
      simp only [List.cons_append, List.map_cons, List.nodup_cons] at hnd
      apply hnd.1
      rw [h1]
      simp
    | cons y p2 =>
      simp only [List.cons_append] at heq
      injection heq with h1 h2
      subst h1
      simp only [List.cons_append, List.map_cons, List.nodup_cons] at hnd
      obtain ⟨hp, hab, hr⟩ := ih l a r1 p2 b r2 hnd.2 h2
      exact ⟨by rw [hp], hab, hr⟩

/-- Claim C4: `are_exclusive` is symmetric — for every pair of nodes in a
tree, `are_exclusive(A, B) == are_exclusive(B, A)`, even though the
algorithm indexes A's ancestor chain and climbs B's. -/
theorem claimC4 (g : Graph) (a b : Nat) :
    areExclusive g a b = areExclusive g b a := by
  by_cases hc : ∃ x ∈ chainFrom g b, ∃ e, lookupChild (chainFrom g a) x.1 = some e
  · -- a lowest common ancestor exists
    obtain ⟨pre, x, rest, hsplit, hpre, hPx⟩ :=
      list_first_hit (fun x : Nat × Nat => ∃ e, lookupChild (chainFrom g a) x.1 = some e)
        (chainFrom g b) hc
    obtain ⟨l, eB⟩ := x
    obtain ⟨eA, hlA⟩ := hPx
    have hpre' : ∀ y ∈ pre, lookupChild (chainFrom g a) y.1 = none := by
      intro y hy
      cases hl : lookupChild (chainFrom g a) y.1 with
      | none => rfl
      | some e => exact absurd ⟨e, hl⟩ (hpre y hy)
    have hlmem : l ∈ (chainFrom g a).map Prod.fst :=
      List.mem_map_of_mem Prod.fst (lookupChild_mem _ _ _ hlA)
    obtain ⟨preA, eA', hdecA⟩ := chain_suffix g (g.depth a) a l le_rfl hlmem
    have heA : eA' = eA := by
      have hmem : (l, eA') ∈ chainFrom g a := by rw [hdecA]; simp
      have hsome := lookupChild_of_mem _ (chain_fst_nodup g a) l eA' hmem
      rw [hsome] at hlA
      exact Option.some.inj hlA
    rw [heA] at hdecA
    obtain ⟨preB2, eB2, hdecB2⟩ :=
      chain_suffix g (g.depth b) b l le_rfl (by rw [hsplit]; simp)
    obtain ⟨_, _, hrr⟩ :=
      assoc_split_unique pre l eB rest preB2 eB2 (chainFrom g l)
        (by rw [← hsplit]; exact chain_fst_nodup g b) (by rw [← hsplit, ← hdecB2])
    have hpreA : ∀ y ∈ preA, lookupChild (chainFrom g b) y.1 = none := by
      intro y hy
      rw [lookupChild_none_iff]
      intro z hz hzy
      have hpwA := (chain_depth g (g.depth a) a le_rfl).2
      rw [hdecA] at hpwA
      have hyl : g.depth l < g.depth y.1 :=
        (List.pairwise_append.mp hpwA).2.2 y hy (l, eA) (List.mem_cons_self _ _)
      have hz' : z ∈ pre ++ (l, eB) :: chainFrom g l := by
        rw [← hrr, ← hsplit]
        exact hz
      rcases List.mem_append.mp hz' with hz1 | hz1
      · have hnone := hpre' z hz1
        rw [lookupChild_none_iff] at hnone
        have hyA : y ∈ chainFrom g a := by
          rw [hdecA]
          exact List.mem_append_left _ hy
        exact hnone y hyA hzy.symm
      · rcases List.mem_cons.mp hz1 with rfl | hz1
        · have hzy' : l = y.1 := hzy
          rw [← hzy'] at hyl
          omega
        · have hzl := (chain_depth g (g.depth l) l le_rfl).1 z hz1
          rw [hzy] at hzl
          omega
    have hlB : lookupChild (chainFrom g b) l = some eB := by
      apply lookupChild_of_mem _ (chain_fst_nodup g b) l eB
      rw [hsplit]
      simp
    unfold areExclusive
    rw [climb_reach g _ pre b l eA eB rest hsplit hpre' hlA]
    rw [climb_reach g _ preA a l eB eA (chainFrom g l) hdecA hpreA hlB]
    exact decideAtNode_comm g l eA eB
  · -- no common ancestor: both climbs fall off the root
    have hmissB : ∀ x ∈ chainFrom g b, lookupChild (chainFrom g a) x.1 = none := by
      intro x hx
      cases hl : lookupChild (chainFrom g a) x.1 with
      | none => rfl
      | some e => exact absurd ⟨x, hx, e, hl⟩ hc
    have hmissA : ∀ y ∈ chainFrom g a, lookupChild (chainFrom g b) y.1 = none := by
      intro y hy
      rw [lookupChild_none_iff]
      intro z hz hzy
      have hnone := hmissB z hz
      rw [lookupChild_none_iff] at hnone
      exact hnone y hy hzy.symm
    unfold areExclusive
    rw [climb_miss g _ (g.depth b) b le_rfl hmissB,
      climb_miss g _ (g.depth a) a le_rfl hmissA]

/-! ## Helper lemmas for the tree walker -/

open List

/-- A node of depth 0 has no children. -/
theorem children_nil_of_depth_zero (G : TGraph) (n : Nat) (h0 : G.depth n = 0) :
    G.childrenOf n = [] := by
  cases hc : G.childrenOf n with
  | nil => rfl
  | cons c cs =>
    have := G.children_depth n c (by rw [hc]; exact List.mem_cons_self _ _)
    omega

theorem preIdsF_congr (G : TGraph) :
    ∀ f1 f2 n, G.depth n < f1 → G.depth n < f2 →
      preIdsF G f1 n = preIdsF G f2 n := by
  intro f1
  induction f1 with
  | zero => intro f2 n h1 h2; omega
  | succ f1 ih =>
    intro f2 n h1 h2
    cases f2 with
    | zero => omega
    | succ f2 =>
      simp only [preIdsF]
      have hmap : (G.childrenOf n).map (preIdsF G f1) =
          (G.childrenOf n).map (preIdsF G f2) := by
        apply List.map_congr_left
        intro c hc
        have := G.children_depth n c hc
        exact ih f2 c (by omega) (by omega)
      rw [hmap]

theorem sigTraceF_congr (G : TGraph) (h : Handler) :
    ∀ f1 f2 n, G.depth n < f1 → G.depth n < f2 →
      sigTraceF G h f1 n = sigTraceF G h f2 n := by
  intro f1
  induction f1 with
  | zero => intro f2 n h1 h2; omega
  | succ f1 ih =>
    intro f2 n h1 h2
    cases f2 with
    | zero => omega
    | succ f2 =>
      simp only [sigTraceF]
      have hmap : (G.childrenOf n).map (fun c => Event.setContext n c :: sigTraceF G h f1 c) =
          (G.childrenOf n).map (fun c => Event.setContext n c :: sigTraceF G h f2 c) := by
        apply List.map_congr_left
        intro c hc
        have := G.children_depth n c hc
        rw [ih f2 c (by omega) (by omega)]
      rw [hmap]

theorem sigIdsF_congr (G : TGraph) (h : Handler) :
    ∀ f1 f2 n, G.depth n < f1 → G.depth n < f2 →
      sigIdsF G h f1 n = sigIdsF G h f2 n := by
  intro f1
  induction f1 with
  | zero => intro f2 n h1 h2; omega
  | succ f1 ih =>
    intro f2 n h1 h2
    cases f2 with
    | zero => omega
    | succ f2 =>
      simp only [sigIdsF]
      have hmap : (G.childrenOf n).map (sigIdsF G h f1) =
          (G.childrenOf n).map (sigIdsF G h f2) := by
        apply List.map_congr_left
        intro c hc
        have := G.children_depth n c hc
        exact ih f2 c (by omega) (by omega)
      rw [hmap]

/-- One-level unfolding of the preorder id list at canonical fuel. -/
theorem treeIds_eq (G : TGraph) (n : Nat) :
    treeIds G n = n :: ((G.childrenOf n).map (treeIds G)).flatten := by
  show preIdsF G (G.depth n + 1) n = _
  rw [show preIdsF G (G.depth n + 1) n
      = n :: ((G.childrenOf n).map (preIdsF G (G.depth n))).flatten from rfl]
  have hmap : (G.childrenOf n).map (preIdsF G (G.depth n)) =
      (G.childrenOf n).map (treeIds G) := by
    apply List.map_congr_left
    intro c hc
    have := G.children_depth n c hc
    exact preIdsF_congr G (G.depth n) (G.depth c + 1) c (by omega) (by omega)
  rw [hmap]

/-- One-level unfolding of the canonical walk trace. -/
theorem sigTraceC_eq (G : TGraph) (h : Handler) (n : Nat) :
    sigTraceC G h n =
      if h.enterSignal n then [Event.enter n, Event.leave n]
      else
        Event.enter n ::
          (((G.childrenOf n).map (fun c => Event.setContext n c :: sigTraceC G h c)).flatten
            ++ [Event.leave n]) := by
  unfold sigTraceC
  simp only [sigTraceF]
  by_cases hs : h.enterSignal n = true
  · simp [hs]
  · simp only [Bool.not_eq_true] at hs
    simp only [hs, Bool.false_eq_true, if_false]
    have hmap : (G.childrenOf n).map (fun c => Event.setContext n c :: sigTraceF G h (G.depth n) c) =
        (G.childrenOf n).map (fun c => Event.setContext n c :: sigTraceF G h (G.depth c + 1) c) := by
      apply List.map_congr_left
      intro c hc
      have := G.children_depth n c hc
      rw [sigTraceF_congr G h (G.depth n) (G.depth c + 1) c (by omega) (by omega)]
    rw [hmap]
    rfl

/-- One-level unfolding of the canonical visited-id list. -/
theorem sigIdsC_eq (G : TGraph) (h : Handler) (n : Nat) :
    sigIdsC G h n =
      if h.enterSignal n then [n]
      else n :: ((G.childrenOf n).map (sigIdsC G h)).flatten := by
  unfold sigIdsC
  simp only [sigIdsF]
  by_cases hs : h.enterSignal n = true
  · simp [hs]
  · simp only [Bool.not_eq_true] at hs
    simp only [hs, Bool.false_eq_true, if_false]
    have hmap : (G.childrenOf n).map (sigIdsF G h (G.depth n)) =
        (G.childrenOf n).map (fun c => sigIdsF G h (G.depth c + 1) c) := by
      apply List.map_congr_left
      intro c hc
      have := G.children_depth n c hc
      exact sigIdsF_congr G h (G.depth n) (G.depth c + 1) c (by omega) (by omega)
    rw [hmap]
    rfl

theorem self_mem_preIdsF (G : TGraph) (f n : Nat) (hf : 0 < f) : n ∈ preIdsF G f n := by
  cases f with
  | zero => omega
  | succ f => simp [preIdsF]

theorem self_mem_treeIds (G : TGraph) (n : Nat) : n ∈ treeIds G n := by
  rw [treeIds_eq]
  exact List.mem_cons_self _ _

theorem self_mem_sigIdsC (G : TGraph) (h : Handler) (n : Nat) : n ∈ sigIdsC G h n := by
  rw [sigIdsC_eq]
  by_cases hs : h.enterSignal n = true <;> simp [hs]

/-- Pointwise sublists of blocks give a sublist of the flattenings. -/
theorem flatten_sublist_pointwise {α β : Type} (F1 F2 : α → List β) :
    ∀ l : List α, (∀ c ∈ l, List.Sublist (F1 c) (F2 c)) →
      List.Sublist ((l.map F1).flatten) ((l.map F2).flatten) := by
  intro l
  induction l with
  | nil => intro _; simp
  | cons c l ih =>
    intro hp
    simp only [List.map_cons, List.flatten_cons]
    exact List.Sublist.append (hp c (List.mem_cons_self _ _))
      (ih (fun x hx => hp x (List.mem_cons_of_mem _ hx)))

theorem sigIdsF_sublist (G : TGraph) (h : Handler) :
    ∀ f n, List.Sublist (sigIdsF G h f n) (preIdsF G f n) := by
  intro f
  induction f with
  | zero => intro n; simp [sigIdsF, preIdsF]
  | succ f ih =>
    intro n
    by_cases hs : h.enterSignal n = true
    · simp only [sigIdsF, preIdsF, hs, if_true]
      exact (List.nil_sublist _).cons₂ n
    · simp only [Bool.not_eq_true] at hs
      simp only [sigIdsF, preIdsF, hs, Bool.false_eq_true, if_false]
      exact (flatten_sublist_pointwise _ _ _ (fun c _ => ih c)).cons₂ n

theorem sigIdsC_sublist_treeIds (G : TGraph) (h : Handler) :
    ∀ k n, G.depth n ≤ k → List.Sublist (sigIdsC G h n) (treeIds G n) := by
  intro k
  induction k with
  | zero =>
    intro n hk
    rw [sigIdsC_eq, treeIds_eq, children_nil_of_depth_zero G n (by omega)]
    by_cases hs : h.enterSignal n = true <;> simp [hs]
  | succ k ih =>
    intro n hk
    rw [sigIdsC_eq, treeIds_eq]
    by_cases hs : h.enterSignal n = true
    · simp only [hs, if_true]
      exact (List.nil_sublist _).cons₂ n
    · simp only [Bool.not_eq_true] at hs
      simp only [hs, Bool.false_eq_true, if_false]
      refine (flatten_sublist_pointwise _ _ _ ?_).cons₂ n
      intro c hc
      have := G.children_depth n c hc
      exact ih c (by omega)

/-- Preorder membership is transitive through subtrees. -/
theorem treeIds_trans (G : TGraph) :
    ∀ k n, G.depth n ≤ k → ∀ s ∈ treeIds G n, ∀ x ∈ treeIds G s, x ∈ treeIds G n := by
  intro k
  induction k with
  | zero =>
    intro n hk s hs x hx
    rw [treeIds_eq, children_nil_of_depth_zero G n (by omega)] at hs
    simp at hs
    subst hs
    exact hx
  | succ k ih =>
    intro n hk s hs x hx
    rw [treeIds_eq] at hs
    rcases List.mem_cons.mp hs with rfl | hs
    · exact hx
    · obtain ⟨l, hl, hsl⟩ := List.mem_flatten.mp hs
      obtain ⟨c, hc, rfl⟩ := List.mem_map.mp hl
      have hd := G.children_depth n c hc
      have hxc := ih c (by omega) s hsl x hx
      rw [treeIds_eq]
      refine List.mem_cons_of_mem _ ?_
      exact List.mem_flatten.mpr ⟨treeIds G c, List.mem_map_of_mem _ hc, hxc⟩

/-- The children loop of a leave-signal-free walk, assuming every node of
every child subtree is fresh: it produces the canonical blocks and visits
exactly the signal-respecting ids. -/
theorem walkList_main (G : TGraph) (h : Handler) (f : Nat)
    (ihtree : ∀ n done, G.depth n < f → (preIdsF G f n).Nodup →
      (∀ x ∈ preIdsF G f n, x ∉ done) →
      walkAuxF G h f n done =
        ⟨sigTraceF G h f n, (sigIdsF G h f n).reverse ++ done, none⟩) :
    ∀ (cs : List Nat) (i : Nat) (done : List Nat),
      (∀ c ∈ cs, G.depth c < f) →
      ((cs.map (preIdsF G f)).flatten).Nodup →
      (∀ x ∈ (cs.map (preIdsF G f)).flatten, x ∉ done) →
      i ∈ done →
      walkList (walkAuxF G h f) i cs done =
        ⟨(cs.map (fun c => Event.setContext i c :: sigTraceF G h f c)).flatten,
          ((cs.map (sigIdsF G h f)).flatten).reverse ++ done, none⟩ := by
  intro cs
  induction cs with
  | nil => intro i done _ _ _ _; simp [walkList]
  | cons c cs ih =>
    intro i done hdep hnd hdisj hidone
    have hfc : 0 < f := by
      have := hdep c (List.mem_cons_self _ _)
      omega
    simp only [List.map_cons, List.flatten_cons] at hnd hdisj
    rw [List.nodup_append] at hnd
    have hcne : ¬(c = i) := by
      intro hh
      exact hdisj c (List.mem_append_left _ (self_mem_preIdsF G f c hfc)) (hh ▸ hidone)
    have hchild := ihtree c done (hdep c (List.mem_cons_self _ _)) hnd.1
      (fun x hx => hdisj x (List.mem_append_left _ hx))
    have htail := ih i ((sigIdsF G h f c).reverse ++ done)
      (fun x hx => hdep x (List.mem_cons_of_mem _ hx))
      hnd.2.1
      (fun x hx hmem => by
        rcases List.mem_append.mp hmem with hm | hm
        · exact hnd.2.2 ((sigIdsF_sublist G h f c).subset (List.mem_reverse.mp hm)) hx
        · exact hdisj x (List.mem_append_right _ hx) hm)
      (List.mem_append_right _ hidone)
    simp only [walkList, hcne, if_false, hchild, htail]
    simp [List.reverse_append, List.append_assoc]

/-- A leave-signal-free walk of a fresh duplicate-free subtree succeeds,
produces the canonical trace, and marks exactly the visited ids. -/
theorem walk_main (G : TGraph) (h : Handler) (hleave : ∀ m, h.leaveSignal m = false) :
    ∀ f n done, G.depth n < f → (preIdsF G f n).Nodup →
      (∀ x ∈ preIdsF G f n, x ∉ done) →
      walkAuxF G h f n done =
        ⟨sigTraceF G h f n, (sigIdsF G h f n).reverse ++ done, none⟩ := by
  intro f
  induction f with
  | zero => intro n done hd _ _; omega
  | succ f ih =>
    intro n done hd hnd hdisj
    have hni : n ∉ done := hdisj n (self_mem_preIdsF G (f + 1) n (by omega))
    by_cases hs : h.enterSignal n = true
    · simp [walkAuxF, hni, hs, hleave n, sigTraceF, sigIdsF]
    · simp only [Bool.not_eq_true] at hs
      simp only [preIdsF] at hnd hdisj
      rw [List.nodup_cons] at hnd
      have hlist := walkList_main G h f ih (G.childrenOf n) n (n :: done)
        (fun c hc => by have := G.children_depth n c hc; omega)
        hnd.2
        (fun x hx hmem => by
          rcases List.mem_cons.mp hmem with rfl | hm
          · exact hnd.1 hx
          · exact hdisj x (List.mem_cons_of_mem _ hx) hm)
        (List.mem_cons_self _ _)
      simp only [walkAuxF, hni, if_false, hs, Bool.false_eq_true, hleave n, hlist]
      simp [sigTraceF, sigIdsF, hs, List.reverse_cons, List.append_assoc]

/-- `walk` on a node already in `_done`: the revisit `AssertionError` fires
before any callback. -/
theorem walkAuxF_revisit (G : TGraph) (h : Handler) (f n : Nat) (done : List Nat)
    (hmem : n ∈ done) :
    walkAuxF G h (f + 1) n done = ⟨[], done, some (WalkErr.revisit n)⟩ := by
  simp [walkAuxF, hmem]

theorem walkList_cons_self (wa : Nat → List Nat → WalkResult) (i : Nat)
    (cs done : List Nat) :
    walkList wa i (i :: cs) done =
      ⟨[Event.setContext i i], done, some (WalkErr.selfChild i)⟩ := by
  simp [walkList]

theorem walkList_cons_err (wa : Nat → List Nat → WalkResult) (i c : Nat)
    (cs done : List Nat) (hci : ¬(c = i)) (tr : List Event) (dn : List Nat)
    (e : WalkErr) (hw : wa c done = ⟨tr, dn, some e⟩) :
    walkList wa i (c :: cs) done = ⟨Event.setContext i c :: tr, dn, some e⟩ := by
  simp [walkList, hci, hw]

theorem walkList_cons_ok (wa : Nat → List Nat → WalkResult) (i c : Nat)
    (cs done : List Nat) (hci : ¬(c = i)) (tr : List Event) (dn : List Nat)
    (hw : wa c done = ⟨tr, dn, none⟩) :
    walkList wa i (c :: cs) done =
      ⟨Event.setContext i c :: (tr ++ (walkList wa i cs dn).trace),
        (walkList wa i cs dn).done, (walkList wa i cs dn).err⟩ := by
  simp [walkList, hci, hw]

theorem walkAuxF_children_err (G : TGraph) (h : Handler) (f n : Nat) (done : List Nat)
    (hni : n ∉ done) (hs : h.enterSignal n = false) (tr : List Event) (dn : List Nat)
    (e : WalkErr)
    (hw : walkList (walkAuxF G h f) n (G.childrenOf n) (n :: done) = ⟨tr, dn, some e⟩) :
    walkAuxF G h (f + 1) n done = ⟨Event.enter n :: tr, dn, some e⟩ := by
  simp [walkAuxF, hni, hs, hw]

theorem walkAuxF_children_ok (G : TGraph) (h : Handler) (f n : Nat) (done : List Nat)
    (hni : n ∉ done) (hs : h.enterSignal n = false) (hls : h.leaveSignal n = false)
    (tr : List Event) (dn : List Nat)
    (hw : walkList (walkAuxF G h f) n (G.childrenOf n) (n :: done) = ⟨tr, dn, none⟩) :
    walkAuxF G h (f + 1) n done =
      ⟨Event.enter n :: (tr ++ [Event.leave n]), dn, none⟩ := by
  simp [walkAuxF, hni, hs, hls, hw]

/-- Converse direction: if a signal-free walk of a subtree succeeds, that
subtree was duplicate-free and fresh, and `_done` grew by its preorder. -/
theorem walk_success (G : TGraph) (h : Handler) (hsig : ∀ m, h.enterSignal m = false) :
    ∀ f n done, G.depth n < f →
      (walkAuxF G h f n done).err = none →
      ((preIdsF G f n).Nodup ∧ ∀ x ∈ preIdsF G f n, x ∉ done) ∧
      (walkAuxF G h f n done).done = (preIdsF G f n).reverse ++ done := by
  intro f
  induction f with
  | zero => intro n done hd _; omega
  | succ f ih =>
    have hlist : ∀ (cs : List Nat) (i : Nat) (done : List Nat),
        (∀ c ∈ cs, G.depth c < f) →
        (walkList (walkAuxF G h f) i cs done).err = none →
        (((cs.map (preIdsF G f)).flatten).Nodup ∧
          ∀ x ∈ (cs.map (preIdsF G f)).flatten, x ∉ done) ∧
        (walkList (walkAuxF G h f) i cs done).done =
          ((cs.map (preIdsF G f)).flatten).reverse ++ done := by
      intro cs
      induction cs with
      | nil => intro i done _ _; exact ⟨⟨by simp, by simp⟩, by simp [walkList]⟩
      | cons c cs ihcs =>
        intro i done hdep herr
        by_cases hci : c = i
        · subst hci
          rw [walkList_cons_self _ c cs done] at herr
          simp at herr
        · rcases hrw : walkAuxF G h f c done with ⟨tr, dn, er⟩
          cases er with
          | some e =>
            rw [walkList_cons_err _ i c cs done hci tr dn e hrw] at herr
            simp at herr
          | none =>
            have hcd : G.depth c < f := hdep c (List.mem_cons_self _ _)
            have hcsucc := ih c done hcd (by rw [hrw])
            have hdn : dn = (preIdsF G f c).reverse ++ done := by
              have h2 := hcsucc.2
              rw [hrw] at h2
              exact h2
            rw [walkList_cons_ok _ i c cs done hci tr dn hrw] at herr ⊢
            simp only at herr ⊢
            have htail := ihcs i dn (fun x hx => hdep x (List.mem_cons_of_mem _ hx)) herr
            refine ⟨⟨?_, ?_⟩, ?_⟩
            · simp only [List.map_cons, List.flatten_cons]
              rw [List.nodup_append]
              refine ⟨hcsucc.1.1, htail.1.1, ?_⟩
              intro x hx1 hx2
              apply htail.1.2 x hx2
              rw [hdn]
              exact List.mem_append_left _ (List.mem_reverse.mpr hx1)
            · intro x hx
              simp only [List.map_cons, List.flatten_cons] at hx
              rcases List.mem_append.mp hx with hx | hx
              · exact hcsucc.1.2 x hx
              · intro hmem
                apply htail.1.2 x hx
                rw [hdn]
                exact List.mem_append_right _ hmem
            · rw [htail.2, hdn]
              simp [List.reverse_append, List.append_assoc]
    intro n done hd herr
    by_cases hni : n ∈ done
    · rw [walkAuxF_revisit G h f n done hni] at herr
      simp at herr
    · have hs := hsig n
      rcases hrw : walkList (walkAuxF G h f) n (G.childrenOf n) (n :: done) with ⟨tr, dn, er⟩
      cases er with
      | some e =>
        rw [walkAuxF_children_err G h f n done hni hs tr dn e hrw] at herr
        simp at herr
      | none =>
        cases hls : h.leaveSignal n with
        | true =>
          have hstep : walkAuxF G h (f + 1) n done =
              ⟨Event.enter n :: (tr ++ [Event.leave n]), dn,
                some (WalkErr.leaveEscape n)⟩ := by
            simp [walkAuxF, hni, hs, hls, hrw]
          rw [hstep] at herr
          simp at herr
        | false =>
          rw [walkAuxF_children_ok G h f n done hni hs hls tr dn hrw] at herr ⊢
          simp only at herr ⊢
          have hkids := hlist (G.childrenOf n) n (n :: done)
            (fun c hc => by have := G.children_depth n c hc; omega) (by rw [hrw])
          refine ⟨⟨?_, ?_⟩, ?_⟩
          · simp only [preIdsF]
            rw [List.nodup_cons]
            refine ⟨?_, hkids.1.1⟩
            intro hmem
            exact hkids.1.2 n hmem (List.mem_cons_self _ _)
          · intro x hx
            simp only [preIdsF] at hx
            rcases List.mem_cons.mp hx with rfl | hx
            · exact hni
            · intro hmem
              exact hkids.1.2 x hx (List.mem_cons_of_mem _ hmem)
          · have h2 := hkids.2
            rw [hrw] at h2
            simp only at h2
            rw [h2]
            simp [preIdsF, List.reverse_cons, List.append_assoc]

/-- With no leave-raised signals, the only exceptions a walk can raise are
the two traversal-consistency assertion errors. -/
theorem walk_err_class (G : TGraph) (h : Handler) (hleave : ∀ m, h.leaveSignal m = false) :
    ∀ f n done e, (walkAuxF G h f n done).err = some e →
      ∃ k, e = WalkErr.revisit k ∨ e = WalkErr.selfChild k := by
  intro f
  induction f with
  | zero => intro n done e herr; simp [walkAuxF] at herr
  | succ f ih =>
    have hlist : ∀ (cs : List Nat) (i : Nat) (done : List Nat) (e : WalkErr),
        (walkList (walkAuxF G h f) i cs done).err = some e →
        ∃ k, e = WalkErr.revisit k ∨ e = WalkErr.selfChild k := by
      intro cs
      induction cs with
      | nil => intro i done e herr; simp [walkList] at herr
      | cons c cs ihcs =>
        intro i done e herr
        by_cases hci : c = i
        · subst hci
          rw [walkList_cons_self _ c cs done] at herr
          simp only at herr
          injection herr with herr
          exact ⟨c, Or.inr herr.symm⟩
        · rcases hrw : walkAuxF G h f c done with ⟨tr, dn, er⟩
          cases er with
          | some e' =>
            rw [walkList_cons_err _ i c cs done hci tr dn e' hrw] at herr
            simp only at herr
            injection herr with herr
            subst herr
            exact ih c done e' (by rw [hrw])
          | none =>
            rw [walkList_cons_ok _ i c cs done hci tr dn hrw] at herr
            simp only at herr
            exact ihcs i dn e herr
    intro n done e herr
    by_cases hni : n ∈ done
    · rw [walkAuxF_revisit G h f n done hni] at herr
      simp only at herr
      injection herr with herr
      exact ⟨n, Or.inl herr.symm⟩
    · cases hs : h.enterSignal n with
      | true =>
        have hstep : walkAuxF G h (f + 1) n done =
            ⟨[Event.enter n, Event.leave n], n :: done, none⟩ := by
          simp [walkAuxF, hni, hs, hleave n]
        rw [hstep] at herr
        simp at herr
      | false =>
        rcases hrw : walkList (walkAuxF G h f) n (G.childrenOf n) (n :: done) with ⟨tr, dn, er⟩
        cases er with
        | some e' =>
          rw [walkAuxF_children_err G h f n done hni hs tr dn e' hrw] at herr
          simp only at herr
          injection herr with herr
          subst herr
          exact hlist (G.childrenOf n) n (n :: done) e' (by rw [hrw])
        | none =>
          rw [walkAuxF_children_ok G h f n done hni hs (hleave n) tr dn hrw] at herr
          simp at herr

/-! ## Claim C8: the revisit assertion -/

/-- Claim C8: a node already in the per-walk `_done` set fails with the
traversal-consistency `AssertionError` before any callback for it runs
(first conjunct: empty trace, untouched `_done`), and on a malformed
(non-duplicate-free) input a full signal-free walk surfaces such an
assertion error to the caller rather than silently continuing. -/
theorem claimC8 :
    (∀ (G : TGraph) (h : Handler) (f n : Nat) (done : List Nat), n ∈ done →
      walkAuxF G h (f + 1) n done = ⟨[], done, some (WalkErr.revisit n)⟩) ∧
    (∀ (G : TGraph) (h : Handler) (root : Nat),
      (∀ m, h.enterSignal m = false) → (∀ m, h.leaveSignal m = false) →
      ¬(treeIds G root).Nodup →
      ∃ k, (walk G h root).err = some (WalkErr.revisit k) ∨
        (walk G h root).err = some (WalkErr.selfChild k)) := by
  constructor
  · intro G h f n done hmem
    exact walkAuxF_revisit G h f n done hmem
  · intro G h root hsig hleave hnd
    cases herr : (walk G h root).err with
    | none =>
      exfalso
      apply hnd
      exact (walk_success G h hsig (G.depth root + 1) root [] (by omega) herr).1.1
    | some e =>
      obtain ⟨k, hk⟩ := walk_err_class G h hleave (G.depth root + 1) root [] e herr
      refine ⟨k, ?_⟩
      rcases hk with hk | hk
      · exact Or.inl (by rw [hk])
      · exact Or.inr (by rw [hk])

/-- Witness for claim C8: the immediate revisit failure at a concrete
input, and the duplicated child of `tDup` surfacing an assertion error
from a full walk. -/
theorem claimC8_witness :
    walkAuxF tDup hNone 1 1 [1, 0] = ⟨[], [1, 0], some (WalkErr.revisit 1)⟩ ∧
    (∃ k, (walk tDup hNone 0).err = some (WalkErr.revisit k) ∨
      (walk tDup hNone 0).err = some (WalkErr.selfChild k)) :=
  ⟨claimC8.1 tDup hNone 0 1 [1, 0] (by decide),
   claimC8.2 tDup hNone 0 (fun _ => rfl) (fun _ => rfl) (by decide)⟩

/-- Enter/leave events occur in the canonical trace exactly as often as the
node occurs among the visited ids. -/
theorem sigTraceC_count (G : TGraph) (h : Handler) (m : Nat) :
    ∀ k n, G.depth n ≤ k →
      (sigTraceC G h n).count (Event.enter m) = (sigIdsC G h n).count m ∧
      (sigTraceC G h n).count (Event.leave m) = (sigIdsC G h n).count m := by
  intro k
  induction k with
  | zero =>
    intro n hk
    rw [sigTraceC_eq, sigIdsC_eq, children_nil_of_depth_zero G n (by omega)]
    by_cases hs : h.enterSignal n = true <;>
      by_cases hm : n = m <;>
        simp [hs, hm, List.count_cons, List.count_nil]
  | succ k ih =>
    intro n hk
    rw [sigTraceC_eq, sigIdsC_eq]
    have hflat : ∀ cs : List Nat, (∀ c ∈ cs, G.depth c ≤ k) →
        ((cs.map (fun c => Event.setContext n c :: sigTraceC G h c)).flatten).count
            (Event.enter m) =
          ((cs.map (sigIdsC G h)).flatten).count m ∧
        ((cs.map (fun c => Event.setContext n c :: sigTraceC G h c)).flatten).count
            (Event.leave m) =
          ((cs.map (sigIdsC G h)).flatten).count m := by
      intro cs
      induction cs with
      | nil => intro _; simp
      | cons c cs ihc =>
        intro hdep
        have hc := ih c (hdep c (List.mem_cons_self _ _))
        have hcs := ihc (fun x hx => hdep x (List.mem_cons_of_mem _ hx))
        simp only [List.map_cons, List.flatten_cons, List.count_append, List.count_cons]
        simp only [List.count_append] at hcs
        constructor
        · simp [hc.1, hcs.1]
        · simp [hc.2, hcs.2]
    have hdep : ∀ c ∈ G.childrenOf n, G.depth c ≤ k := by
      intro c hc
      have := G.children_depth n c hc
      omega
    by_cases hs : h.enterSignal n = true
    · by_cases hm : n = m
      · subst hm
        simp [hs, List.count_cons]
      · simp [hs, List.count_cons, hm, Ne.symm hm]
    · by_cases hm : n = m
      · subst hm
        simp only [hs, Bool.false_eq_true, if_false, List.count_cons, List.count_append]
        have hf := hflat (G.childrenOf n) hdep
        constructor
        · simp [hf.1]
        · simp [hf.2]
      · simp [hs, List.count_cons, List.count_append, hm, Ne.symm hm,
          (hflat (G.childrenOf n) hdep).1, (hflat (G.childrenOf n) hdep).2]

/-- Canonical trace of an unskipped node: enter, child blocks, leave. -/
theorem sigTraceC_shape (G : TGraph) (h : Handler) (n : Nat)
    (hs : h.enterSignal n = false) :
    sigTraceC G h n =
      Event.enter n ::
        (((G.childrenOf n).map (fun c => Event.setContext n c :: sigTraceC G h c)).flatten
          ++ [Event.leave n]) := by
  rw [sigTraceC_eq]
  simp [hs]

/-- In a signal-free walk, each subtree's canonical trace appears
contiguously inside its ancestors' traces. -/
theorem subtrace_of_mem (G : TGraph) (h : Handler)
    (hsig : ∀ m, h.enterSignal m = false) :
    ∀ k n, G.depth n ≤ k → ∀ s ∈ treeIds G n,
      sigTraceC G h s <:+: sigTraceC G h n := by
  intro k
  induction k with
  | zero =>
    intro n hk s hs
    rw [treeIds_eq, children_nil_of_depth_zero G n (by omega)] at hs
    simp at hs
    subst hs
    exact List.infix_refl _
  | succ k ih =>
    intro n hk s hs
    rw [treeIds_eq] at hs
    rcases List.mem_cons.mp hs with rfl | hs
    · exact List.infix_refl _
    · obtain ⟨l, hl, hsl⟩ := List.mem_flatten.mp hs
      obtain ⟨c, hc, rfl⟩ := List.mem_map.mp hl
      have hd := G.children_depth n c hc
      refine (ih c (by omega) s hsl).trans ?_
      have h2 : sigTraceC G h c <:+: (Event.setContext n c :: sigTraceC G h c) :=
        ⟨[Event.setContext n c], [], by simp⟩
      have h3 : (Event.setContext n c :: sigTraceC G h c) <:+:
          ((G.childrenOf n).map (fun c => Event.setContext n c :: sigTraceC G h c)).flatten :=
        List.infix_of_mem_flatten (List.mem_map_of_mem _ hc)
      have h4 : ((G.childrenOf n).map
            (fun c => Event.setContext n c :: sigTraceC G h c)).flatten <:+:
          sigTraceC G h n := by
        rw [sigTraceC_shape G h n (hsig n)]
        exact ⟨[Event.enter n], [Event.leave n], by simp⟩
      exact (h2.trans h3).trans h4

theorem enter_self_mem_trace (G : TGraph) (h : Handler) (n : Nat) :
    Event.enter n ∈ sigTraceC G h n := by
  rw [sigTraceC_eq]
  by_cases hs : h.enterSignal n = true <;> simp [hs]

theorem leave_self_mem_trace (G : TGraph) (h : Handler) (n : Nat) :
    Event.leave n ∈ sigTraceC G h n := by
  rw [sigTraceC_eq]
  by_cases hs : h.enterSignal n = true <;> simp [hs]

/-- With no signals the visited ids are the whole preorder. -/
theorem sigIdsC_eq_treeIds (G : TGraph) (h : Handler)
    (hsig : ∀ m, h.enterSignal m = false) :
    ∀ k n, G.depth n ≤ k → sigIdsC G h n = treeIds G n := by
  intro k
  induction k with
  | zero =>
    intro n hk
    rw [sigIdsC_eq, treeIds_eq, children_nil_of_depth_zero G n (by omega)]
    simp [hsig n]
  | succ k ih =>
    intro n hk
    rw [sigIdsC_eq, treeIds_eq]
    simp only [hsig n, Bool.false_eq_true, if_false]
    congr 1
    apply congrArg
    apply List.map_congr_left
    intro c hc
    have := G.children_depth n c hc
    exact ih c (by omega)

/-- Claim C2: on an acyclic (duplicate-free) tree, a signal-free walk
succeeds, invokes the resolved enter and leave callbacks exactly once per
node, with enter(parent) before enter(child), enter(node) before
leave(node), leave(child) before leave(parent), and each child subtree's
events (every descendant's leave in particular) complete before any later
sibling is entered.  With the exactly-once counts, each two-event sublist
pins the relative order of the unique occurrences. -/
theorem claimC2 (G : TGraph) (h : Handler) (root : Nat)
    (hsig : ∀ m, h.enterSignal m = false ∧ h.leaveSignal m = false)
    (hnd : (treeIds G root).Nodup) :
    (walk G h root).err = none ∧
    (∀ m ∈ treeIds G root,
      (walk G h root).trace.count (Event.enter m) = 1 ∧
      (walk G h root).trace.count (Event.leave m) = 1) ∧
    (∀ s ∈ treeIds G root,
      List.Sublist [Event.enter s, Event.leave s] (walk G h root).trace) ∧
    (∀ s ∈ treeIds G root, ∀ c ∈ G.childrenOf s,
      List.Sublist [Event.enter s, Event.enter c] (walk G h root).trace ∧
      List.Sublist [Event.leave c, Event.leave s] (walk G h root).trace) ∧
    (∀ s ∈ treeIds G root, ∀ (l1 : List Nat) (c1 : Nat) (l2 : List Nat) (c2 : Nat)
        (l3 : List Nat),
      G.childrenOf s = l1 ++ c1 :: l2 ++ c2 :: l3 →
      ∀ d ∈ treeIds G c1,
        List.Sublist [Event.leave d, Event.enter c2] (walk G h root).trace) := by
  have hsigE : ∀ m, h.enterSignal m = false := fun m => (hsig m).1
  have hsigL : ∀ m, h.leaveSignal m = false := fun m => (hsig m).2
  have hwalk : walk G h root =
      ⟨sigTraceC G h root, (sigIdsC G h root).reverse ++ [], none⟩ :=
    walk_main G h hsigL (G.depth root + 1) root [] (by omega) hnd (by simp)
  have htr : (walk G h root).trace = sigTraceC G h root := by rw [hwalk]
  refine ⟨by rw [hwalk], ?_, ?_, ?_, ?_⟩
  · intro m hm
    rw [htr]
    have hc := sigTraceC_count G h m (G.depth root) root le_rfl
    rw [sigIdsC_eq_treeIds G h hsigE (G.depth root) root le_rfl] at hc
    rw [hc.1, hc.2]
    exact ⟨List.count_eq_one_of_mem hnd hm, List.count_eq_one_of_mem hnd hm⟩
  · intro s hs
    rw [htr]
    have hsub := subtrace_of_mem G h hsigE (G.depth root) root le_rfl s hs
    refine List.Sublist.trans ?_ hsub.sublist
    rw [sigTraceC_shape G h s (hsigE s)]
    exact (List.sublist_append_right _ _).cons₂ _
  · intro s hs c hc
    rw [htr]
    have hsub := subtrace_of_mem G h hsigE (G.depth root) root le_rfl s hs
    have hentc : Event.enter c ∈
        ((G.childrenOf s).map (fun x => Event.setContext s x :: sigTraceC G h x)).flatten :=
      List.mem_flatten.mpr ⟨_, List.mem_map_of_mem _ hc,
        List.mem_cons_of_mem _ (enter_self_mem_trace G h c)⟩
    have hlevc : Event.leave c ∈
        ((G.childrenOf s).map (fun x => Event.setContext s x :: sigTraceC G h x)).flatten :=
      List.mem_flatten.mpr ⟨_, List.mem_map_of_mem _ hc,
        List.mem_cons_of_mem _ (leave_self_mem_trace G h c)⟩
    constructor
    · refine List.Sublist.trans ?_ hsub.sublist
      rw [sigTraceC_shape G h s (hsigE s)]
      exact (List.singleton_sublist.mpr (List.mem_append_left _ hentc)).cons₂ _
    · refine List.Sublist.trans ?_ hsub.sublist
      rw [sigTraceC_shape G h s (hsigE s)]
      refine List.Sublist.cons _ ?_
      exact List.Sublist.append (List.singleton_sublist.mpr hlevc) (List.Sublist.refl _)
  · intro s hs l1 c1 l2 c2 l3 hkids d hd
    rw [htr]
    have hsub := subtrace_of_mem G h hsigE (G.depth root) root le_rfl s hs
    have hld : Event.leave d ∈ sigTraceC G h c1 :=
      (subtrace_of_mem G h hsigE (G.depth c1) c1 le_rfl d hd).sublist.subset
        (leave_self_mem_trace G h d)
    refine List.Sublist.trans ?_ hsub.sublist
    rw [sigTraceC_shape G h s (hsigE s), hkids]
    have hflat : ((l1 ++ c1 :: l2 ++ c2 :: l3).map
          (fun x => Event.setContext s x :: sigTraceC G h x)).flatten =
        (l1.map (fun x => Event.setContext s x :: sigTraceC G h x)).flatten ++
          ((Event.setContext s c1 :: sigTraceC G h c1) ++
            ((l2.map (fun x => Event.setContext s x :: sigTraceC G h x)).flatten ++
              ((Event.setContext s c2 :: sigTraceC G h c2) ++
                (l3.map (fun x => Event.setContext s x :: sigTraceC G h x)).flatten))) := by
      simp [List.map_append, List.flatten_append, List.append_assoc]
    rw [hflat]
    have h1 : List.Sublist [Event.leave d] (Event.setContext s c1 :: sigTraceC G h c1) :=
      List.singleton_sublist.mpr (List.mem_cons_of_mem _ hld)
    have h2 : List.Sublist [Event.enter c2]
        ((l2.map (fun x => Event.setContext s x :: sigTraceC G h x)).flatten ++
          ((Event.setContext s c2 :: sigTraceC G h c2) ++
            (l3.map (fun x => Event.setContext s x :: sigTraceC G h x)).flatten)) :=
      List.singleton_sublist.mpr
        (List.mem_append_right _ (List.mem_append_left _
          (List.mem_cons_of_mem _ (enter_self_mem_trace G h c2))))
    have h12 := List.Sublist.append h1 h2
    refine List.Sublist.cons _ ?_
    refine List.Sublist.trans ?_ (List.sublist_append_left _ [Event.leave s])
    exact List.Sublist.trans h12 (List.sublist_append_right _ _)

/-- Witness for claim C2: a full walk of `tTwo` (root 0 with children 1
and 2) by the signal-free handler. -/
theorem claimC2_witness :
    (walk tTwo hNone 0).err = none ∧
    (walk tTwo hNone 0).trace.count (Event.enter 1) = 1 ∧
    List.Sublist [Event.leave 1, Event.enter 2] (walk tTwo hNone 0).trace := by
  have h := claimC2 tTwo hNone 0 (fun m => ⟨rfl, rfl⟩) (by decide)
  refine ⟨h.1, (h.2.1 1 (by decide)).1, ?_⟩
  exact h.2.2.2.2 0 (by decide) [] 1 [] 2 [] (by decide) 1 (by decide)

/-- Every node mentioned by a trace event was actually visited. -/
theorem trace_event_ids (G : TGraph) (h : Handler) :
    ∀ k n, G.depth n ≤ k →
      (∀ m, Event.enter m ∈ sigTraceC G h n → m ∈ sigIdsC G h n) ∧
      (∀ m, Event.leave m ∈ sigTraceC G h n → m ∈ sigIdsC G h n) ∧
      (∀ p c, Event.setContext p c ∈ sigTraceC G h n →
        p ∈ sigIdsC G h n ∧ c ∈ sigIdsC G h n) := by
  intro k
  induction k with
  | zero =>
    intro n hk
    rw [sigTraceC_eq, sigIdsC_eq, children_nil_of_depth_zero G n (by omega)]
    by_cases hs : h.enterSignal n = true <;> simp [hs]
  | succ k ih =>
    intro n hk
    rw [sigTraceC_eq, sigIdsC_eq]
    by_cases hs : h.enterSignal n = true
    · simp [hs]
    · simp only [Bool.not_eq_true] at hs
      simp only [hs, Bool.false_eq_true, if_false]
      have hstep : ∀ (ev : Event),
          ev ∈ ((G.childrenOf n).map (fun c => Event.setContext n c :: sigTraceC G h c)).flatten →
          ∃ c ∈ G.childrenOf n, ev = Event.setContext n c ∨ ev ∈ sigTraceC G h c := by
        intro ev hev
        obtain ⟨l, hl, hevl⟩ := List.mem_flatten.mp hev
        obtain ⟨c, hc, rfl⟩ := List.mem_map.mp hl
        rcases List.mem_cons.mp hevl with hctx | hevl
        · exact ⟨c, hc, Or.inl hctx⟩
        · exact ⟨c, hc, Or.inr hevl⟩
      have hdep : ∀ c ∈ G.childrenOf n, G.depth c ≤ k := by
        intro c hc
        have := G.children_depth n c hc
        omega
      have hsub : ∀ c ∈ G.childrenOf n, ∀ x ∈ sigIdsC G h c,
          x ∈ n :: ((G.childrenOf n).map (sigIdsC G h)).flatten := by
        intro c hc x hx
        exact List.mem_cons_of_mem _
          (List.mem_flatten.mpr ⟨_, List.mem_map_of_mem _ hc, hx⟩)
      refine ⟨?_, ?_, ?_⟩
      · intro m hm
        rcases List.mem_cons.mp hm with he | hm
        · injection he with he
          rw [he]
          exact List.mem_cons_self _ _
        · rcases List.mem_append.mp hm with hm | hm
          · obtain ⟨c, hc, hcase⟩ := hstep _ hm
            rcases hcase with hctx | hm2
            · cases hctx
            · exact hsub c hc m ((ih c (hdep c hc)).1 m hm2)
          · simp at hm
      · intro m hm
        rcases List.mem_cons.mp hm with he | hm
        · cases he
        · rcases List.mem_append.mp hm with hm | hm
          · obtain ⟨c, hc, hcase⟩ := hstep _ hm
            rcases hcase with hctx | hm2
            · cases hctx
            · exact hsub c hc m ((ih c (hdep c hc)).2.1 m hm2)
          · simp at hm
            rw [hm]
            exact List.mem_cons_self _ _
      · intro p c hm
        rcases List.mem_cons.mp hm with he | hm
        · cases he
        · rcases List.mem_append.mp hm with hm | hm
          · obtain ⟨c', hc', hcase⟩ := hstep _ hm
            rcases hcase with hctx | hm2
            · injection hctx with hp hc2
              rw [hp, hc2]
              exact ⟨List.mem_cons_self _ _, hsub c' hc' c' (self_mem_sigIdsC G h c')⟩
            · have hboth := (ih c' (hdep c' hc')).2.2 p c hm2
              exact ⟨hsub c' hc' p hboth.1, hsub c' hc' c hboth.2⟩
          · simp at hm

/-- The whole subtree of a child inherits duplicate-freedom. -/
theorem child_treeIds_nodup (G : TGraph) (n c : Nat) (hnd : (treeIds G n).Nodup)
    (hc : c ∈ G.childrenOf n) : (treeIds G c).Nodup := by
  rw [treeIds_eq, List.nodup_cons] at hnd
  exact List.Nodup.sublist (List.sublist_flatten_of_mem (List.mem_map_of_mem _ hc)) hnd.2

/-- In a duplicate-free tree, no strict descendant of a node whose enter
callback signalled skip-children is ever visited. -/
theorem skip_desc_not_mem (G : TGraph) (h : Handler) :
    ∀ k n, G.depth n ≤ k → (treeIds G n).Nodup →
      ∀ s, s ∈ sigIdsC G h n → h.enterSignal s = true →
      ∀ d ∈ ((G.childrenOf s).map (treeIds G)).flatten, d ∉ sigIdsC G h n := by
  intro k
  induction k with
  | zero =>
    intro n hk hnd s hsmem hssig d hd hdmem
    have hcn := children_nil_of_depth_zero G n (by omega)
    rw [sigIdsC_eq, hcn] at hsmem hdmem
    simp at hsmem hdmem
    subst hsmem
    subst hdmem
    rw [hcn] at hd
    simp at hd
  | succ k ih =>
    intro n hk hnd s hsmem hssig d hd hdmem
    rw [sigIdsC_eq] at hsmem hdmem
    by_cases hsn : h.enterSignal n = true
    · rw [if_pos hsn] at hsmem hdmem
      simp at hsmem hdmem
      subst hsmem
      subst hdmem
      rw [treeIds_eq, List.nodup_cons] at hnd
      obtain ⟨ld, hld, hdld⟩ := List.mem_flatten.mp hd
      obtain ⟨cd, hcd, rfl⟩ := List.mem_map.mp hld
      exact hnd.1 (List.mem_flatten.mpr ⟨_, List.mem_map_of_mem _ hcd, hdld⟩)
    · rw [if_neg hsn] at hsmem hdmem
      rcases List.mem_cons.mp hsmem with rfl | hsmem
      · rw [hssig] at hsn
        exact hsn rfl
      · obtain ⟨ls, hls, hsls⟩ := List.mem_flatten.mp hsmem
        obtain ⟨c, hc, rfl⟩ := List.mem_map.mp hls
        have hdc := G.children_depth n c hc
        have hstree : s ∈ treeIds G c :=
          (sigIdsC_sublist_treeIds G h (G.depth c) c le_rfl).subset hsls
        have hdtree : d ∈ treeIds G c := by
          obtain ⟨ld, hld, hdld⟩ := List.mem_flatten.mp hd
          obtain ⟨cd, hcd, rfl⟩ := List.mem_map.mp hld
          have hds : d ∈ treeIds G s := by
            rw [treeIds_eq]
            exact List.mem_cons_of_mem _
              (List.mem_flatten.mpr ⟨_, List.mem_map_of_mem _ hcd, hdld⟩)
          exact treeIds_trans G (G.depth c) c le_rfl s hstree d hds
        rw [treeIds_eq, List.nodup_cons] at hnd
        rcases List.mem_cons.mp hdmem with rfl | hdmem
        · exact hnd.1 (List.mem_flatten.mpr ⟨_, List.mem_map_of_mem _ hc, hdtree⟩)
        · obtain ⟨ld2, hld2, hdld2⟩ := List.mem_flatten.mp hdmem
          obtain ⟨c', hc', rfl⟩ := List.mem_map.mp hld2
          by_cases hcc : c = c'
          · subst hcc
            exact ih c (by omega)
              (List.Nodup.sublist (List.sublist_flatten_of_mem (List.mem_map_of_mem _ hc)) hnd.2)
              s hsls hssig d hd hdld2
          · have hdtree' : d ∈ treeIds G c' :=
              (sigIdsC_sublist_treeIds G h (G.depth c') c' le_rfl).subset hdld2
            have hpair := (List.nodup_flatten.mp hnd.2).2
            have hne : treeIds G c ≠ treeIds G c' := by
              intro hh
              apply hcc
              rw [treeIds_eq, treeIds_eq] at hh
              injection hh with hh _
            have hdisj := List.Pairwise.forall (R := List.Disjoint)
              (fun _ _ hab => List.Disjoint.symm hab) hpair
              (List.mem_map_of_mem _ hc) (List.mem_map_of_mem _ hc') hne
            exact hdisj hdtree hdtree'

/-! ## Claim C3: the skip-children signal -/

/-- Counterexample to claim C3: the claim says the skip-children signal
never escapes the walk regardless of which handler callback raises it, but
`walk` only catches `IgnoreChild` around `self.visit(node)` — an
`IgnoreChild` raised by a leave callback escapes to the caller, as this
single-node walk shows. -/
theorem claimC3_counterexample :
    (walk tSolo hLeaveSig 0).err = some (WalkErr.leaveEscape 0) := by decide

/-- Claim C3 (amended): when the *enter* callback of a visited node N
raises the skip-children signal, the signal is caught inside the walk (the
walk still succeeds), leave(N) — and enter(N) — still run exactly once,
and no enter, leave, or `set_context` callback mentions any strict
descendant of N.  (A signal raised by a *leave* callback, by contrast,
escapes the walk: see the counterexample.) -/
theorem claimC3_amended (G : TGraph) (h : Handler) (root s : Nat)
    (hleave : ∀ m, h.leaveSignal m = false)
    (hnd : (treeIds G root).Nodup)
    (hsmem : s ∈ sigIdsC G h root)
    (hssig : h.enterSignal s = true) :
    (walk G h root).err = none ∧
    (walk G h root).trace.count (Event.enter s) = 1 ∧
    (walk G h root).trace.count (Event.leave s) = 1 ∧
    (∀ d ∈ ((G.childrenOf s).map (treeIds G)).flatten,
      Event.enter d ∉ (walk G h root).trace ∧
      Event.leave d ∉ (walk G h root).trace ∧
      (∀ p, Event.setContext p d ∉ (walk G h root).trace) ∧
      (∀ c, Event.setContext d c ∉ (walk G h root).trace)) := by
  have hwalk : walk G h root =
      ⟨sigTraceC G h root, (sigIdsC G h root).reverse ++ [], none⟩ :=
    walk_main G h hleave (G.depth root + 1) root [] (by omega) hnd (by simp)
  have htr : (walk G h root).trace = sigTraceC G h root := by rw [hwalk]
  have hidnd : (sigIdsC G h root).Nodup :=
    List.Nodup.sublist (sigIdsC_sublist_treeIds G h (G.depth root) root le_rfl) hnd
  have hcount := sigTraceC_count G h s (G.depth root) root le_rfl
  have hev := trace_event_ids G h (G.depth root) root le_rfl
  have hnotin := skip_desc_not_mem G h (G.depth root) root le_rfl hnd s hsmem hssig
  refine ⟨by rw [hwalk], ?_, ?_, ?_⟩
  · rw [htr, hcount.1]
    exact List.count_eq_one_of_mem hidnd hsmem
  · rw [htr, hcount.2]
    exact List.count_eq_one_of_mem hidnd hsmem
  · intro d hd
    have hdnot := hnotin d hd
    refine ⟨?_, ?_, ?_, ?_⟩
    · rw [htr]
      intro hmem
      exact hdnot (hev.1 d hmem)
    · rw [htr]
      intro hmem
      exact hdnot (hev.2.1 d hmem)
    · intro p
      rw [htr]
      intro hmem
      exact hdnot ((hev.2.2 p d hmem).2)
    · intro c
      rw [htr]
      intro hmem
      exact hdnot ((hev.2.2 d c hmem).1)

/-- Witness for the amended claim C3 on `tChain` (0 → 1 → 2) with the
handler whose enter callback signals skip-children on node 1: the walk
succeeds, node 1 is still left exactly once, and node 2 sees no events. -/
theorem claimC3_witness :
    (walk tChain hSkip1 0).err = none ∧
    (walk tChain hSkip1 0).trace.count (Event.leave 1) = 1 ∧
    Event.enter 2 ∉ (walk tChain hSkip1 0).trace := by
  have h := claimC3_amended tChain hSkip1 0 1 (fun _ => rfl) (by decide) (by decide)
    (by decide)
  exact ⟨h.1, h.2.2.1, (h.2.2.2 2 (by decide)).1⟩

/-! ## Helper lemmas for the locals walker -/

/-- Visiting a memoized node is an immediate no-op. -/
theorem lvisit_visited (g : LGraph) (h : LHandler) (f n : Nat) (vis : List Nat)
    (hmem : n ∈ vis) : lvisitF g h f n vis = (none, vis, []) := by
  cases f with
  | zero => rfl
  | succ f => simp [lvisitF, hmem]

/-- The return value of a real visit is the leave method's value (or
`None` when the method is absent), whatever the recursion below did. -/
theorem lvisit_result (g : LGraph) (h : LHandler) (f n : Nat) (vis : List Nat)
    (hf : 0 < f) (hni : n ∉ vis) :
    (lvisitF g h f n vis).1 = if h.hasLeave n then some (h.leaveValue n) else none := by
  cases f with
  | zero => omega
  | succ f => by_cases hL : h.hasLeave n = true <;> simp [lvisitF, hni, hL]

/-- Assembling one frame of `LocalsVisitor.visit`: given the memoization
invariant for the recursion below, the frame's own enter/leave events keep
every callback count at most one. -/
theorem lvisit_combine (n : Nat) (vis stv : List Nat) (stt : List Event)
    (enterTr leaveTr tr : List Event)
    (hni : n ∉ vis)
    (he : enterTr = [] ∨ enterTr = [Event.enter n])
    (hl : leaveTr = [] ∨ leaveTr = [Event.leave n])
    (htr : tr = (enterTr ++ stt) ++ leaveTr)
    (hsub : ∀ x ∈ n :: vis, x ∈ stv)
    (hm : ∀ m, (m ∈ n :: vis →
        stt.count (Event.enter m) = 0 ∧ stt.count (Event.leave m) = 0) ∧
      stt.count (Event.enter m) ≤ 1 ∧ stt.count (Event.leave m) ≤ 1 ∧
      (m ∉ stv → stt.count (Event.enter m) = 0 ∧ stt.count (Event.leave m) = 0)) :
    (∀ x ∈ vis, x ∈ stv) ∧
    (∀ m,
      (m ∈ vis → tr.count (Event.enter m) = 0 ∧ tr.count (Event.leave m) = 0) ∧
      tr.count (Event.enter m) ≤ 1 ∧ tr.count (Event.leave m) ≤ 1 ∧
      (m ∉ stv → tr.count (Event.enter m) = 0 ∧ tr.count (Event.leave m) = 0)) := by
  subst htr
  constructor
  · intro x hx
    exact hsub x (List.mem_cons_of_mem _ hx)
  · intro m
    have hmm := hm m
    have h1 : ((enterTr ++ stt) ++ leaveTr).count (Event.enter m) =
        enterTr.count (Event.enter m) + stt.count (Event.enter m) := by
      rcases hl with rfl | rfl <;> simp [List.count_append]
    have h2 : ((enterTr ++ stt) ++ leaveTr).count (Event.leave m) =
        stt.count (Event.leave m) + leaveTr.count (Event.leave m) := by
      rcases he with rfl | rfl <;> simp [List.count_append]
    have h3 : enterTr.count (Event.enter m) ≤ 1 ∧
        (¬m = n → enterTr.count (Event.enter m) = 0) := by
      rcases he with rfl | rfl
      · simp
      · by_cases hmn : m = n <;> simp [hmn, List.count_cons]
    have h4 : leaveTr.count (Event.leave m) ≤ 1 ∧
        (¬m = n → leaveTr.count (Event.leave m) = 0) := by
      rcases hl with rfl | rfl
      · simp
      · by_cases hmn : m = n <;> simp [hmn, List.count_cons]
    have hstt0 : m = n → stt.count (Event.enter m) = 0 ∧ stt.count (Event.leave m) = 0 := by
      intro hh
      subst hh
      exact hmm.1 (List.mem_cons_self _ _)
    refine ⟨?_, ?_, ?_, ?_⟩
    · intro hmvis
      have hmn : ¬m = n := fun hh => hni (hh ▸ hmvis)
      have e1 := h3.2 hmn
      have e2 := hmm.1 (List.mem_cons_of_mem _ hmvis)
      have e3 := h4.2 hmn
      rw [h1, h2]
      omega
    · rw [h1]
      by_cases hmn : m = n
      · have := hstt0 hmn
        have := h3.1
        omega
      · have := h3.2 hmn
        have := hmm.2.1
        omega
    · rw [h2]
      by_cases hmn : m = n
      · have := hstt0 hmn
        have := h4.1
        omega
      · have := h4.2 hmn
        have := hmm.2.2.1
        omega
    · intro hmstv
      have hmn : ¬m = n := fun hh => hmstv (hh ▸ hsub n (List.mem_cons_self _ _))
      have e1 := h3.2 hmn
      have e2 := hmm.2.2.2 hmstv
      have e3 := h4.2 hmn
      rw [h1, h2]
      omega

/-- Across one `LocalsVisitor` walk, whatever the graph (cyclic included)
and fuel: the visited map only grows, nodes already visited receive no
callbacks, every node's enter and leave run at most once, and nodes left
unvisited receive no callbacks. -/
theorem lvisit_inv (g : LGraph) (h : LHandler) :
    ∀ f n vis,
      (∀ x ∈ vis, x ∈ (lvisitF g h f n vis).2.1) ∧
      (∀ m,
        (m ∈ vis → (lvisitF g h f n vis).2.2.count (Event.enter m) = 0 ∧
          (lvisitF g h f n vis).2.2.count (Event.leave m) = 0) ∧
        (lvisitF g h f n vis).2.2.count (Event.enter m) ≤ 1 ∧
        (lvisitF g h f n vis).2.2.count (Event.leave m) ≤ 1 ∧
        (m ∉ (lvisitF g h f n vis).2.1 →
          (lvisitF g h f n vis).2.2.count (Event.enter m) = 0 ∧
          (lvisitF g h f n vis).2.2.count (Event.leave m) = 0)) := by
  intro f
  induction f with
  | zero =>
    intro n vis
    constructor
    · intro x hx
      simpa [lvisitF] using hx
    · intro m
      simp [lvisitF]
  | succ f ih =>
    have hlist : ∀ (cs : List Nat) (vis : List Nat),
        (∀ x ∈ vis, x ∈ (lvisitList (fun c v => (lvisitF g h f c v).2) cs vis).1) ∧
        (∀ m,
          (m ∈ vis →
            (lvisitList (fun c v => (lvisitF g h f c v).2) cs vis).2.count (Event.enter m) = 0 ∧
            (lvisitList (fun c v => (lvisitF g h f c v).2) cs vis).2.count (Event.leave m) = 0) ∧
          (lvisitList (fun c v => (lvisitF g h f c v).2) cs vis).2.count (Event.enter m) ≤ 1 ∧
          (lvisitList (fun c v => (lvisitF g h f c v).2) cs vis).2.count (Event.leave m) ≤ 1 ∧
          (m ∉ (lvisitList (fun c v => (lvisitF g h f c v).2) cs vis).1 →
            (lvisitList (fun c v => (lvisitF g h f c v).2) cs vis).2.count (Event.enter m) = 0 ∧
            (lvisitList (fun c v => (lvisitF g h f c v).2) cs vis).2.count (Event.leave m) = 0)) := by
      intro cs
      induction cs with
      | nil =>
        intro vis
        constructor
        · intro x hx
          simpa [lvisitList] using hx
        · intro m
          simp [lvisitList]
      | cons c cs ihcs =>
        intro vis
        rcases hrw : lvisitF g h f c vis with ⟨res, v1, t1⟩
        have hc := ih c vis
        rw [hrw] at hc
        simp only at hc
        rcases hrw2 : lvisitList (fun c v => (lvisitF g h f c v).2) cs v1 with ⟨v2, t2⟩
        have hcs := ihcs v1
        rw [hrw2] at hcs
        simp only at hcs
        have hstep : lvisitList (fun c v => (lvisitF g h f c v).2) (c :: cs) vis =
            (v2, t1 ++ t2) := by
          simp [lvisitList, hrw, hrw2]
        rw [hstep]
        simp only
        constructor
        · intro x hx
          exact hcs.1 x (hc.1 x hx)
        · intro m
          have hc1 := hc.2 m
          have hcs1 := hcs.2 m
          simp only [List.count_append]
          refine ⟨?_, ?_, ?_, ?_⟩
          · intro hmvis
            have e1 := hc1.1 hmvis
            have e2 := hcs1.1 (hc.1 m hmvis)
            omega
          · by_cases hmv1 : m ∈ v1
            · have e2 := hcs1.1 hmv1
              have e1 := hc1.2.1
              omega
            · have e1 := hc1.2.2.2 hmv1
              have e2 := hcs1.2.1
              omega
          · by_cases hmv1 : m ∈ v1
            · have e2 := hcs1.1 hmv1
              have e1 := hc1.2.2.1
              omega
            · have e1 := hc1.2.2.2 hmv1
              have e2 := hcs1.2.2.1
              omega
          · intro hmv2
            have hmv1 : m ∉ v1 := fun hh => hmv2 (hcs.1 m hh)
            have e1 := hc1.2.2.2 hmv1
            have e2 := hcs1.2.2.2 hmv2
            omega
    intro n vis
    by_cases hni : n ∈ vis
    · rw [lvisit_visited g h (f + 1) n vis hni]
      simp only
      constructor
      · intro x hx
        exact hx
      · intro m
        simp
    · have he : (if h.hasEnter n then [Event.enter n] else ([] : List Event)) = [] ∨
          (if h.hasEnter n then [Event.enter n] else ([] : List Event)) = [Event.enter n] := by
        by_cases hh : h.hasEnter n = true <;> simp [hh]
      have hnilm : ∀ m, (m ∈ n :: vis →
          ([] : List Event).count (Event.enter m) = 0 ∧
          ([] : List Event).count (Event.leave m) = 0) ∧
        ([] : List Event).count (Event.enter m) ≤ 1 ∧
        ([] : List Event).count (Event.leave m) ≤ 1 ∧
        (m ∉ n :: vis → ([] : List Event).count (Event.enter m) = 0 ∧
          ([] : List Event).count (Event.leave m) = 0) := by
        intro m
        simp
      by_cases hrec : (h.hasEnter n && h.enterSignal n) = true
      · -- no recursion below: the state is (n :: vis, [])
        by_cases hL : h.hasLeave n = true
        · have hcomp : lvisitF g h (f + 1) n vis =
              (some (h.leaveValue n), n :: vis,
                ((if h.hasEnter n then [Event.enter n] else []) ++ []) ++ [Event.leave n]) := by
            simp [lvisitF, hni, hrec, hL]
          rw [hcomp]
          simp only
          exact lvisit_combine n vis (n :: vis) [] _ _ _ hni he (Or.inr rfl) rfl
            (fun x hx => hx) hnilm
        · have hcomp : lvisitF g h (f + 1) n vis =
              (none, n :: vis,
                ((if h.hasEnter n then [Event.enter n] else []) ++ []) ++ []) := by
            simp [lvisitF, hni, hrec, hL]
          rw [hcomp]
          simp only
          exact lvisit_combine n vis (n :: vis) [] _ _ _ hni he (Or.inl rfl) rfl
            (fun x hx => hx) hnilm
      · cases hloc : g.locals? n with
        | none =>
          by_cases hL : h.hasLeave n = true
          · have hcomp : lvisitF g h (f + 1) n vis =
                (some (h.leaveValue n), n :: vis,
                  ((if h.hasEnter n then [Event.enter n] else []) ++ []) ++ [Event.leave n]) := by
              simp [lvisitF, hni, hrec, hloc, hL]
            rw [hcomp]
            simp only
            exact lvisit_combine n vis (n :: vis) [] _ _ _ hni he (Or.inr rfl) rfl
              (fun x hx => hx) hnilm
          · have hcomp : lvisitF g h (f + 1) n vis =
                (none, n :: vis,
                  ((if h.hasEnter n then [Event.enter n] else []) ++ []) ++ []) := by
              simp [lvisitF, hni, hrec, hloc, hL]
            rw [hcomp]
            simp only
            exact lvisit_combine n vis (n :: vis) [] _ _ _ hni he (Or.inl rfl) rfl
              (fun x hx => hx) hnilm
        | some ns =>
          rcases hst : lvisitList (fun c v => (lvisitF g h f c v).2) ns (n :: vis) with ⟨stv, stt⟩
          have hkids := hlist ns (n :: vis)
          rw [hst] at hkids
          simp only at hkids
          by_cases hL : h.hasLeave n = true
          · have hcomp : lvisitF g h (f + 1) n vis =
                (some (h.leaveValue n), stv,
                  ((if h.hasEnter n then [Event.enter n] else []) ++ stt) ++ [Event.leave n]) := by
              simp [lvisitF, hni, hrec, hloc, hst, hL]
            rw [hcomp]
            simp only
            exact lvisit_combine n vis stv stt _ _ _ hni he (Or.inr rfl) rfl
              hkids.1 hkids.2
          · have hcomp : lvisitF g h (f + 1) n vis =
                (none, stv,
                  ((if h.hasEnter n then [Event.enter n] else []) ++ stt) ++ []) := by
              simp [lvisitF, hni, hrec, hloc, hst, hL]
            rw [hcomp]
            simp only
            exact lvisit_combine n vis stv stt _ _ _ hni he (Or.inl rfl) rfl
              hkids.1 hkids.2

/-! ## Claim C7: the locals walker's memoization -/

/-- Claim C7: across one `LocalsVisitor` walk of a (possibly cyclic)
locals graph, each node's enter and leave callbacks run at most once; a
node already in the walk-wide visited map returns immediately with no
callback invocations; a really visited node's result is its leave
callback's return value (or `None` when the method is absent).  The last
conjunct is the two-parent scenario on `lgTwo`: node 3, reachable through
both 1 and 2, is entered and left exactly once, its real (first) visit
returns its leave value 103, and the second, memoized visit returns
`None`. -/
theorem claimC7 (g : LGraph) (h : LHandler) :
    (∀ (f n : Nat) (vis : List Nat), n ∈ vis →
      lvisitF g h f n vis = (none, vis, [])) ∧
    (∀ (f n : Nat) (vis : List Nat) (m : Nat),
      (lvisitF g h f n vis).2.2.count (Event.enter m) ≤ 1 ∧
      (lvisitF g h f n vis).2.2.count (Event.leave m) ≤ 1) ∧
    (∀ (f n : Nat) (vis : List Nat), 0 < f → n ∉ vis →
      (lvisitF g h f n vis).1 =
        if h.hasLeave n then some (h.leaveValue n) else none) ∧
    ((lvisitF lgTwo lhFull 10 0 []).2.2.count (Event.enter 3) = 1 ∧
     (lvisitF lgTwo lhFull 10 0 []).2.2.count (Event.leave 3) = 1 ∧
     (lvisitF lgTwo lhFull 9 3 [1, 0]).1 = some 103 ∧
     (lvisitF lgTwo lhFull 9 3 [3, 1, 0]).1 = none) := by
  refine ⟨?_, ?_, ?_, by decide, by decide, by decide, by decide⟩
  · intro f n vis hmem
    exact lvisit_visited g h f n vis hmem
  · intro f n vis m
    have hi := (lvisit_inv g h f n vis).2 m
    exact ⟨hi.2.1, hi.2.2.1⟩
  · intro f n vis hf hni
    exact lvisit_result g h f n vis hf hni

/-- Witness for claim C7: the memoized no-op and the result rule at
concrete inputs. -/
theorem claimC7_witness :
    lvisitF lgTwo lhFull 5 3 [3, 1, 0] = (none, [3, 1, 0], []) ∧
    (lvisitF lgTwo lhFull 5 2 [1, 0]).1 = some 102 := by
  have h := claimC7 lgTwo lhFull
  refine ⟨h.1 5 3 [3, 1, 0] (by decide), ?_⟩
  have h2 := h.2.2.1 5 2 [1, 0] (by decide) (by decide)
  simpa using h2
